import Mathlib

/-!
Shallow embedding of the gh_repo_indexing static-analysis pipeline
(src/preprocessing.py, src/treesitter.py, src/update_codebase.py).

Tree-sitter syntax trees are external inputs to the program; they are
modelled by the inductive `TSNode` below.  A real tree-sitter node carries a
node kind (`node.type`), the verbatim source text of its extent
(`node.text`), a zero-based start position (`node.start_point`), byte
offsets, a unique node id (used by the library's node equality), an optional
field name relative to its parent (e.g. the `name:` field used by the
queries in treesitter.py), and child/parent/prev_sibling links.  Parent and
previous-sibling links are recovered here by traversing the tree with an
explicit context (`walkFrom` carries the ancestor chain and the
preceding-sibling chain), which yields exactly the information the Python
code reads through `node.parent` / `node.prev_sibling`.
-/

namespace GhRepoIndexing

/-- One source location emitted by `find_references`
(preprocessing.py lines 170-175 / 179-184). -/
structure Reference where
  file : String
  line : Nat
  column : Nat
  text : String
deriving DecidableEq, Repr

/-- A row of `class_data` as built by `process_code_content`
(preprocessing.py lines 116-123). -/
structure ClassData where
  file_path : String
  class_name : String
  constructor_declaration : String
  method_declarations : String
  source_code : String
  references : List Reference
deriving DecidableEq, Repr

/-- A row of `method_data` as built by `process_code_content`
(preprocessing.py lines 129-136). -/
structure MethodData where
  file_path : String
  class_name : String
  name : String
  doc_comment : String
  source_code : String
  references : List Reference
deriving DecidableEq, Repr

/-- The scalar data of one tree-sitter node: kind (`node.type`), verbatim
text, zero-based start row/column (`node.start_point`), byte span, the
field name this node occupies under its parent (if any), and the node id
that tree-sitter's node equality compares. -/
structure NodeData where
  nid : Nat
  kind : String
  field : Option String
  text : String
  startRow : Nat
  startCol : Nat
  startByte : Nat
  endByte : Nat
deriving DecidableEq, Repr

/-- A tree-sitter syntax tree node with its ordered children. -/
inductive TSNode where
  | mk (data : NodeData) (children : List TSNode)

def TSNode.data : TSNode → NodeData
  | .mk d _ => d

def TSNode.children : TSNode → List TSNode
  | .mk _ cs => cs

/-- `treesitter.LanguageEnum` (treesitter.py lines 30-35).  Note the enum
has no `GO` member, while `preprocessing.get_language_from_extension`
mentions `LanguageEnum.GO` in its extension table. -/
inductive LanguageEnum where
  | JAVA
  | PYTHON
  | RUST
  | JAVASCRIPT
  | UNKNOWN
deriving DecidableEq, Repr

/-- Python exceptions that the modelled code can raise. -/
inductive PyErr where
  | attributeError (msg : String)
  | valueError (msg : String)
deriving DecidableEq, Repr

/-- A visit of one node during a tree walk, together with the chain of its
proper ancestors (nearest first, i.e. `node.parent`, `node.parent.parent`,
...) and the chain of its preceding siblings (nearest first, i.e.
`node.prev_sibling`, `node.prev_sibling.prev_sibling`, ...). -/
structure Visit where
  node : TSNode
  ancs : List TSNode
  prevs : List TSNode

mutual

/-- Pre-order enumeration of all nodes of a tree, each with its ancestor
and preceding-sibling chains; this recovers the `parent` and
`prev_sibling` links of real tree-sitter nodes. -/
def walkFrom (anc prevs : List TSNode) : TSNode → List Visit
  | .mk d cs => ⟨.mk d cs, anc, prevs⟩ :: walkKids (.mk d cs :: anc) [] cs

def walkKids (anc prevs : List TSNode) : List TSNode → List Visit
  | [] => []
  | c :: rest => walkFrom anc prevs c ++ walkKids anc (c :: prevs) rest

end

/-- All nodes of the subtree rooted at `n`, in pre-order (document order). -/
def subtree (n : TSNode) : List TSNode :=
  (walkFrom [] [] n).map Visit.node

/-!  ## The grammar registry (treesitter.py `LANGUAGE_QUERIES`)

Each class/method query in `LANGUAGE_QUERIES` has the shape
`(parentKind name: (childKind) @capture)`: it captures the node of kind
`childKind` sitting in the `name:` field of a node of kind `parentKind`.
The queries are represented by those `(parentKind, childKind)` pairs; the
doc queries are represented by the predicate a node must satisfy to be
captured as `@comment`. -/

/-- The single pattern of `class_query` per language. -/
def classPattern : LanguageEnum → Option (String × String)
  | .JAVA => some ("class_declaration", "identifier")
  | .PYTHON => some ("class_definition", "identifier")
  | .RUST => some ("struct_item", "type_identifier")
  | .JAVASCRIPT => some ("class_declaration", "identifier")
  | .UNKNOWN => none

/-- The pattern alternatives of `method_query` per language (Java's query
has two alternatives, both captured as `method.name`). -/
def methodPatterns : LanguageEnum → List (String × String)
  | .JAVA => [("method_declaration", "identifier"), ("constructor_declaration", "identifier")]
  | .PYTHON => [("function_definition", "identifier")]
  | .RUST => [("function_item", "identifier")]
  | .JAVASCRIPT => [("method_definition", "property_identifier")]
  | .UNKNOWN => []

/-- `doc_query.captures(n)`: the nodes captured as `@comment` anywhere in
the subtree of `n`, in document order.  Java: `(block_comment)`; Python:
the `(string)` child of an `(expression_statement)`; Rust: `(line_comment)`
or `(block_comment)`; JavaScript: `(comment)`. -/
def docCaptures (lang : LanguageEnum) (n : TSNode) : List TSNode :=
  match lang with
  | .JAVA => (subtree n).filter (fun u => u.data.kind == "block_comment")
  | .PYTHON =>
      (subtree n).flatMap (fun u =>
        if u.data.kind == "expression_statement" then
          u.children.filter (fun c => c.data.kind == "string")
        else [])
  | .RUST =>
      (subtree n).filter (fun u =>
        u.data.kind == "line_comment" || u.data.kind == "block_comment")
  | .JAVASCRIPT => (subtree n).filter (fun u => u.data.kind == "comment")
  | .UNKNOWN => []

/-- The node kinds at which `Treesitter._extract_doc_comment` keeps
scanning backward even when the sibling yields no doc captures
(treesitter.py line 210). -/
def docScanKinds : List String :=
  ["comment", "block_comment", "line_comment", "expression_statement"]

/-- `Treesitter._extract_doc_comment`'s backward loop over the
`prev_sibling` chain (treesitter.py lines 203-213): a sibling with doc
captures prepends their texts; otherwise a sibling whose kind is not in
`docScanKinds` stops the scan; otherwise the scan continues. -/
def docLoop (lang : LanguageEnum) : List TSNode → String → String
  | [], doc => doc
  | cur :: rest, doc =>
      let caps := docCaptures lang cur
      if caps.isEmpty then
        if cur.data.kind ∈ docScanKinds then docLoop lang rest doc
        else doc
      else
        docLoop lang rest (caps.foldl (fun d cap => cap.data.text ++ "\n" ++ d) doc)

/-- Python `str.strip()`: drop leading and trailing whitespace. -/
def pyStrip (s : String) : String :=
  String.mk (((s.data.dropWhile Char.isWhitespace).reverse.dropWhile
    Char.isWhitespace).reverse)

/-- `Treesitter._extract_doc_comment` (treesitter.py lines 201-214),
applied to the preceding-sibling chain of the declaration node
(nearest sibling first). -/
def extractDocComment (lang : LanguageEnum) (prevs : List TSNode) : String :=
  pyStrip (docLoop lang prevs "")

/-- `name: (childKind)` part of a query pattern: the child of `u` in the
`name` field with the expected kind, if any. -/
def captureNameChild (childKind : String) (u : TSNode) : Option TSNode :=
  u.children.find? (fun c => c.data.field == some "name" && c.data.kind == childKind)

/-- The matches of the class query over the visits of a walk: pairs
`(captured name node, class node)` in document order
(`class_captures['class.name']`, with `class_node = node.parent`). -/
def classCaptures (lang : LanguageEnum) (visits : List Visit) : List (TSNode × TSNode) :=
  match classPattern lang with
  | none => []
  | some (pk, ck) =>
      visits.filterMap (fun v =>
        if v.node.data.kind == pk then
          (captureNameChild ck v.node).map (fun c => (c, v.node))
        else none)

/-- The matches of the method query over the visits of a walk: triples of
the captured name node and the visit of its parent declaration node, in
document order (the merged `method.name` / `function.name` capture lists). -/
def methodCaptures (lang : LanguageEnum) (visits : List Visit) : List (TSNode × Visit) :=
  visits.filterMap (fun v =>
    (methodPatterns lang).findSome? (fun p =>
      if v.node.data.kind == p.1 then
        (captureNameChild p.2 v.node).map (fun c => (c, v))
      else none))

/-- `TreesitterClassNode` (treesitter.py lines 116-126). -/
structure TSClassNode where
  name : String
  source_code : String
  method_declarations : List String
  node : TSNode

/-- `TreesitterMethodNode` (treesitter.py lines 101-114); `class_name` is
`none` when no enclosing captured class was found. -/
structure TSMethodNode where
  name : String
  doc_comment : String
  method_source_code : String
  node : TSNode
  class_name : Option String

/-- `Treesitter._extract_methods_in_class` (treesitter.py lines 190-199):
the method query scoped to the class node's subtree; collects the source
text of each matched declaration node. -/
def extractMethodsInClass (lang : LanguageEnum) (classNode : TSNode) : List String :=
  (methodCaptures lang (walkFrom [] [] classNode)).map (fun m => m.2.node.data.text)

/-- The `class_results` list of `Treesitter.parse` (treesitter.py lines
157-165): one `TreesitterClassNode` per class capture, in capture order. -/
def classResultsOf (lang : LanguageEnum) (visits : List Visit) : List TSClassNode :=
  (classCaptures lang visits).map (fun cu =>
    { name := cu.1.data.text
      source_code := cu.2.data.text
      method_declarations := extractMethodsInClass lang cu.2
      node := cu.2 })

/-- The source's `class_nodes` list paired with `class_name_by_node`
(treesitter.py lines 152-165): the captured class nodes in capture order,
each with its name (the dict is keyed by node id; the pairing carries the
same information). -/
def classNodesOf (lang : LanguageEnum) (visits : List Visit) :
    List (TSNode × String) :=
  (classCaptures lang visits).map (fun cu => (cu.2, cu.1.data.text))

/-- The `method_results` list of `Treesitter.parse` (treesitter.py lines
167-186).  `_is_descendant_of` (lines 216-223) walks the method node's
parent chain comparing nodes with tree-sitter node equality (node ids);
the parent chain of a captured method node is its visit's `ancs`, so the
first captured class node with a matching id on that chain supplies the
class name. -/
def methodResultsOf (lang : LanguageEnum) (visits : List Visit)
    (class_nodes : List (TSNode × String)) : List TSMethodNode :=
  (methodCaptures lang visits).map (fun cv =>
    { name := cv.1.data.text
      doc_comment := extractDocComment lang cv.2.prevs
      method_source_code := cv.2.node.data.text
      node := cv.2.node
      class_name :=
        (class_nodes.find? (fun cnd =>
          cv.2.ancs.any (fun a => a.data.nid == cnd.1.data.nid))).map
          (fun cnd => cnd.2) })

/-- `Treesitter.parse` (treesitter.py lines 145-188) on the tree produced
by parsing the file content. -/
def tsParse (parseFn : LanguageEnum → String → TSNode) (lang : LanguageEnum)
    (content : String) : List TSClassNode × List TSMethodNode :=
  (classResultsOf lang (walkFrom [] [] (parseFn lang content)),
   methodResultsOf lang (walkFrom [] [] (parseFn lang content))
     (classNodesOf lang (walkFrom [] [] (parseFn lang content))))

/-!  ## preprocessing.py -/

/-- `Treesitter.create_treesitter` → `Treesitter.__init__`:
`_get_parser_and_language` raises `ValueError` when no grammar package is
bound to the language tag; the four supported languages succeed (their
`tree_sitter_*` packages are assumed importable). -/
def createTreesitterCheck (lang : LanguageEnum) : Except PyErr Unit :=
  match lang with
  | .UNKNOWN => .error (.valueError "Unsupported language: unknown")
  | _ => .ok ()

/-- `process_code_content` (preprocessing.py lines 101-138).  The Python
`set` accumulators `all_class_names` / `all_method_names` are modelled as
lists built in the same loop order; only membership in them is ever
consumed downstream. -/
def process_code_content (parseFn : LanguageEnum → String → TSNode)
    (file_path content : String) (language : LanguageEnum) :
    Except PyErr (List ClassData × List MethodData × List String × List String) := do
  let _ ← createTreesitterCheck language
  let (class_nodes, method_nodes) := tsParse parseFn language content
  let class_data := class_nodes.map (fun cn =>
    { file_path := file_path
      class_name := cn.name
      constructor_declaration := ""
      method_declarations :=
        if cn.method_declarations.isEmpty then ""
        else String.intercalate "\n-----\n" cn.method_declarations
      source_code := cn.source_code
      references := [] })
  let method_data := method_nodes.map (fun mn =>
    { file_path := file_path
      class_name := mn.class_name.getD ""
      name := mn.name
      doc_comment := mn.doc_comment
      source_code := mn.method_source_code
      references := [] })
  return (class_data, method_data, class_nodes.map (·.name), method_nodes.map (·.name))

/-- The accumulated `references` structure of `find_references`: the
source's `defaultdict(list)` per kind is modelled as the flat list of
`(name, reference)` pairs in emission order; the per-name list of the
defaultdict is the insertion-ordered sublist of pairs carrying that name,
and its key order is the order of first emission per name. -/
structure RefAcc where
  cls : List (String × Reference)
  mth : List (String × Reference)
deriving DecidableEq, Repr

/-- The parent kinds under which an identifier counts as a class reference
(preprocessing.py line 169). -/
def typeUseKinds : List String := ["type", "class_type", "object_creation_expression"]

/-- The parent kinds under which an identifier counts as a method
reference (preprocessing.py line 178). -/
def callKinds : List String := ["call_expression", "method_invocation"]

/-- The reference recorded for identifier node `n` under parent `par`
(preprocessing.py lines 170-175): file path, 1-based line and column from
the zero-based `start_point`, and the parent node's verbatim text. -/
def mkReference (file_path : String) (n par : TSNode) : Reference :=
  { file := file_path
    line := n.data.startRow + 1
    column := n.data.startCol + 1
    text := par.data.text }

mutual

/-- Number of nodes in a tree (termination measure helper). -/
def nodeWeight : TSNode → Nat
  | .mk _ cs => 1 + kidsWeight cs

/-- Number of nodes in a forest. -/
def kidsWeight : List TSNode → Nat
  | [] => 0
  | c :: cs => nodeWeight c + kidsWeight cs

end

/-- Total number of nodes on the explicit stack, the termination measure
of the reference walk. -/
def stackWeight (st : List (TSNode × Option TSNode)) : Nat :=
  (st.map (fun p => nodeWeight p.1)).sum

/-- The loop body of the single-pass AST walk (preprocessing.py lines
162-184): at an identifier node, append a class reference when the text is
a tracked class name and the parent's kind is a type-use kind, and a
method reference when the text is a tracked method name and the parent's
kind is a call kind. -/
def refStep (class_names method_names : List String) (file_path : String)
    (acc : RefAcc) (n : TSNode) (parent : Option TSNode) : RefAcc :=
  if n.data.kind = "identifier" then
    let name := n.data.text
    let acc1 :=
      match parent with
      | some par =>
          if name ∈ class_names ∧ par.data.kind ∈ typeUseKinds then
            { acc with cls := acc.cls ++ [(name, mkReference file_path n par)] }
          else acc
      | none => acc
    match parent with
    | some par =>
        if name ∈ method_names ∧ par.data.kind ∈ callKinds then
          { acc1 with mth := acc1.mth ++ [(name, mkReference file_path n par)] }
        else acc1
    | none => acc1
  else acc

/-- The single-pass AST walk of `find_references` (preprocessing.py lines
160-187): an explicit stack of `(node, parent)` pairs; Python's
`stack.pop()` takes the most recently pushed pair, so pushing the children
list puts the last child on top — here the head of the list is the top of
the stack and the reversed children list is pushed. -/
def refWalk (class_names method_names : List String) (file_path : String) :
    List (TSNode × Option TSNode) → RefAcc → RefAcc
  | [], acc => acc
  | (n, parent) :: st, acc =>
      refWalk class_names method_names file_path
        ((n.children.map (fun c => (c, some n))).reverse ++ st)
        (refStep class_names method_names file_path acc n parent)
termination_by st _ => stackWeight st
decreasing_by
  simp only [stackWeight, List.map_append, List.sum_append, List.map_reverse,
    List.sum_reverse, List.map_map, List.map_cons, List.sum_cons, Function.comp_def]
  have h1 : ∀ cs : List TSNode, (List.map (fun x => nodeWeight x) cs).sum = kidsWeight cs := by
    intro cs
    induction cs with
    | nil => rfl
    | cons a l ih => simp [kidsWeight, ih]
  have h2 : nodeWeight n = 1 + kidsWeight n.children := by
    cases n
    rfl
  have h3 := h1 n.children
  omega

/-- `files_by_language` grouping in `find_references` (preprocessing.py
lines 142-149): a `defaultdict(list)` keyed by language, modelled as an
insertion-ordered association list. -/
def groupByLang (file_list : List (String × LanguageEnum)) :
    List (LanguageEnum × List String) :=
  file_list.foldl (fun acc fl =>
    if acc.any (fun e => e.1 == fl.2) then
      acc.map (fun e => if e.1 == fl.2 then (e.1, e.2 ++ [fl.1]) else e)
    else acc ++ [(fl.2, [fl.1])]) []

/-- The per-language loop of `find_references` (preprocessing.py lines
151-187): create the parser for the language (which can raise), then walk
each file's tree starting from `[(tree.root_node, None)]`.  Reading a file
(`open(file_path).read()`) is modelled by the total map `disk`. -/
def findRefsGo (parseFn : LanguageEnum → String → TSNode) (disk : String → String)
    (class_names method_names : List String) :
    List (LanguageEnum × List String) → RefAcc → Except PyErr RefAcc
  | [], acc => .ok acc
  | (lang, files) :: rest, acc => do
      let _ ← createTreesitterCheck lang
      findRefsGo parseFn disk class_names method_names rest
        (files.foldl (fun a fp =>
          refWalk class_names method_names fp [(parseFn lang (disk fp), none)] a) acc)

/-- `find_references` (preprocessing.py lines 140-189).  The
`set(class_names)` / `set(method_names)` conversions are for lookup speed
only; list membership models set membership. -/
def find_references (parseFn : LanguageEnum → String → TSNode) (disk : String → String)
    (file_list : List (String × LanguageEnum))
    (class_names method_names : List String) : Except PyErr RefAcc :=
  findRefsGo parseFn disk class_names method_names (groupByLang file_list) ⟨[], []⟩

/-- Python `dict` insertion (`d[k] = v`): overwrite the value of an
existing key in place, else append the new key at the end.  An
insertion-ordered association list models the dict; iteration order is
list order. -/
def dictUpsert {K V : Type} [BEq K] (d : List (K × V)) (k : K) (v : V) : List (K × V) :=
  if d.any (fun e => e.1 == k) then
    d.map (fun e => if e.1 == k then (e.1, v) else e)
  else d ++ [(k, v)]

/-- The first-occurrence-ordered distinct keys of a pair list: the key
iteration order of the `defaultdict(list)` the pairs model. -/
def firstKeys {K : Type} [BEq K] {V : Type} (pairs : List (K × V)) : List K :=
  pairs.foldl (fun acc p => if acc.any (fun k => k == p.1) then acc else acc ++ [p.1]) []

/-- `.items()` of the `defaultdict(list)` modelled by a flat pair list:
distinct keys in first-emission order, each with its insertion-ordered
value list. -/
def dictItems {K : Type} [BEq K] {V : Type} (pairs : List (K × V)) : List (K × List V) :=
  (firstKeys pairs).map (fun k => (k, (pairs.filter (fun p => p.1 == k)).map (·.2)))

/-- `class_data_dict = {cd['class_name']: cd for cd in class_data}`
(preprocessing.py line 224): a dict comprehension, i.e. repeated keyed
insertion — a later row with the same class name overwrites the earlier. -/
def class_data_dict_of (class_data : List ClassData) : List (String × ClassData) :=
  class_data.foldl (fun d cd => dictUpsert d cd.class_name cd) []

/-- `method_data_dict = {(md['class_name'], md['name']): md for md in
method_data}` (preprocessing.py line 225). -/
def method_data_dict_of (method_data : List MethodData) :
    List ((String × String) × MethodData) :=
  method_data.foldl (fun d md => dictUpsert d (md.class_name, md.name) md) []

/-- The class-reference attachment loop (preprocessing.py lines 227-229):
for every class name of the reference dict that is a key of
`class_data_dict`, set that row's `references`. -/
def attach_class_refs (items : List (String × List Reference))
    (d : List (String × ClassData)) : List (String × ClassData) :=
  items.foldl (fun d it =>
    if d.any (fun e => e.1 == it.1) then
      d.map (fun e => if e.1 == it.1 then (e.1, { e.2 with references := it.2 }) else e)
    else d) d

/-- The method-reference attachment loop (preprocessing.py lines 231-234):
for every method name of the reference dict, set `references` on every row
whose key's second component (`key[1]`) equals the method name. -/
def attach_method_refs (items : List (String × List Reference))
    (d : List ((String × String) × MethodData)) :
    List ((String × String) × MethodData) :=
  items.foldl (fun d it =>
    d.map (fun e =>
      if e.1.2 == it.1 then (e.1, { e.2 with references := it.2 }) else e)) d

/-- `map_references_to_data` (preprocessing.py lines 222-236): key the
class rows by `class_name` and the method rows by `(class_name, name)`
(later rows overwrite earlier ones), then attach each class name's
reference list to the surviving row of that name if present, attach each
method name's reference list to every surviving method row whose `name`
matches (any class), and return the dict values. -/
def map_references_to_data (class_data : List ClassData) (method_data : List MethodData)
    (references : RefAcc) : List ClassData × List MethodData :=
  ((attach_class_refs (dictItems references.cls) (class_data_dict_of class_data)).map (·.2),
   (attach_method_refs (dictItems references.mth)
     (method_data_dict_of method_data)).map (·.2))

/-- The per-file extraction loop shared by both pipelines: extend the
accumulated class rows, method rows and name lists with one file's
extraction output. -/
def extendAcc (acc : List ClassData × List MethodData × List String × List String)
    (out : List ClassData × List MethodData × List String × List String) :
    List ClassData × List MethodData × List String × List String :=
  (acc.1 ++ out.1, acc.2.1 ++ out.2.1, acc.2.2.1 ++ out.2.2.1, acc.2.2.2 ++ out.2.2.2)

/-- `process_codebase` (preprocessing.py lines 238-259): extract every
file (reading its content from disk), then resolve references over the
same file list, then map them onto the rows. -/
def process_codebase (parseFn : LanguageEnum → String → TSNode) (disk : String → String)
    (files : List (String × LanguageEnum)) :
    Except PyErr (List ClassData × List MethodData) := do
  let acc ← files.foldlM (fun acc fl => do
    let out ← process_code_content parseFn fl.1 (disk fl.1) fl.2
    return extendAcc acc out) ([], [], [], [])
  let references ← find_references parseFn disk files acc.2.2.1 acc.2.2.2
  return map_references_to_data acc.1 acc.2.1 references

/-- `process_codebase_in_memory` (preprocessing.py lines 261-282): same
two-phase sequence over a language-keyed dict of `(path, content)` pairs;
the resolver's file list is rebuilt from the dict, and `find_references`
still reads each file through `disk`. -/
def process_codebase_in_memory (parseFn : LanguageEnum → String → TSNode)
    (disk : String → String)
    (files_by_language : List (LanguageEnum × List (String × String))) :
    Except PyErr (List ClassData × List MethodData) := do
  let acc ← files_by_language.foldlM (fun acc lf =>
    lf.2.foldlM (fun acc fc => do
      let out ← process_code_content parseFn fc.1 fc.2 lf.1
      return extendAcc acc out) acc) ([], [], [], [])
  let file_list := files_by_language.flatMap (fun lf => lf.2.map (fun fc => (fc.1, lf.1)))
  let references ← find_references parseFn disk file_list acc.2.2.1 acc.2.2.2
  return map_references_to_data acc.1 acc.2.1 references

/-- `get_language_from_extension` (preprocessing.py lines 74-82).  The
function body builds the dict literal `FILE_EXTENSION_LANGUAGE_MAP` whose
`".go"` entry evaluates `LanguageEnum.GO`; `treesitter.LanguageEnum` has
no member `GO`, so every call raises `AttributeError` before the `.get`
lookup is reached. -/
def get_language_from_extension (file_ext : String) :
    Except PyErr (Option LanguageEnum) :=
  .error (.attributeError "GO")

/-- `pathlib.PurePath.suffix` of a posix path: the final component's
extension including the dot, or `""` when the final component has no dot,
starts with its only dot, or ends with its last dot. -/
def pathSuffix (path : String) : String :=
  let nm := ((path.splitOn "/").getLastD "").toList
  match (nm.reverse.takeWhile (fun c => c ≠ '.')).length with
  | 0 => ""  -- name ends with '.'
  | k =>
      if k = nm.length ∨ k = nm.length - 1 then ""  -- no dot, or only a leading dot
      else String.mk (nm.drop (nm.length - 1 - k))

/-- One entry of the walk `root.rglob("*")` in `load_files`: its
root-relative posix path and whether it is a regular file. -/
structure FSEntry where
  rel : String
  isFile : Bool
deriving DecidableEq, Repr

/-- `load_files` (preprocessing.py lines 85-99), given the walk order of
`root.rglob("*")` (each entry already relativized to the root, as the
source computes `path.relative_to(root).as_posix()`) and the ignore
matcher compiled by `build_spec` (an external `pathspec` matcher, taken
abstractly).  Matched paths are skipped; remaining regular files are
tagged through `get_language_from_extension`, which propagates its
exception. -/
def load_files (entries : List FSEntry) (spec : String → Bool) :
    Except PyErr (List (String × LanguageEnum)) :=
  entries.foldlM (fun acc e =>
    if spec e.rel then pure acc
    else if e.isFile then do
      match ← get_language_from_extension (pathSuffix e.rel) with
      | some lang => pure (acc ++ [(e.rel, lang)])
      | none => pure acc
    else pure acc) []

/-!  ## update_codebase.py -/

/-- `files_by_language[lang].append(...)` with on-demand key creation
(update_codebase.py lines 91-93). -/
def dictAppendList (d : List (LanguageEnum × List (String × String)))
    (lang : LanguageEnum) (fc : String × String) :
    List (LanguageEnum × List (String × String)) :=
  if d.any (fun e => e.1 == lang) then
    d.map (fun e => if e.1 == lang then (e.1, e.2 ++ [fc]) else e)
  else d ++ [(lang, [fc])]

/-- One iteration of the file-collection loop of `process_changed_files`
(update_codebase.py lines 81-93): a deleted tuple is skipped, a failed
content fetch (`file_content` returned `None`) is skipped, then the path's
suffix is mapped to a language (a call that raises, see
`get_language_from_extension`) and the file is appended to its language's
bucket. -/
def collectStep (fetch : String → Option String)
    (acc : List (LanguageEnum × List (String × String))) (sp : String × String) :
    Except PyErr (List (LanguageEnum × List (String × String))) := do
  if sp.1 = "D" then pure acc
  else
    match fetch sp.2 with
    | none => pure acc
    | some content =>
        match ← get_language_from_extension (pathSuffix sp.2) with
        | some lang => pure (dictAppendList acc lang (sp.2, content))
        | none => pure acc

/-- The file-collection loop of `process_changed_files`
(update_codebase.py lines 78-93). -/
def collectChangedFiles (fetch : String → Option String)
    (changed_files : List (String × String)) :
    Except PyErr (List (LanguageEnum × List (String × String))) :=
  changed_files.foldlM (collectStep fetch) []

/-- `process_changed_files` (update_codebase.py lines 75-99): collect the
non-deleted, fetchable changed files by language, return empty data when
nothing remains, else run the in-memory pipeline. -/
def process_changed_files (parseFn : LanguageEnum → String → TSNode)
    (disk : String → String) (fetch : String → Option String)
    (changed_files : List (String × String)) :
    Except PyErr (List ClassData × List MethodData) := do
  let files_by_language ← collectChangedFiles fetch changed_files
  if files_by_language.isEmpty then
    return ([], [])
  else
    process_codebase_in_memory parseFn disk files_by_language

mutual

/-- The `(node, parent)` pairs the explicit stack of `find_references`
eventually pops when seeded with `(n, p)`: the pair itself and, for every
descendant, the pair of that descendant with its parent. -/
def pairsUnder : TSNode → Option TSNode → List (TSNode × Option TSNode)
  | .mk d cs, p => (.mk d cs, p) :: pairsKids cs (.mk d cs)

/-- The `(node, parent)` pairs contributed by the children `cs` of `par`. -/
def pairsKids : List TSNode → TSNode → List (TSNode × Option TSNode)
  | [], _ => []
  | c :: rest, par => pairsUnder c (some par) ++ pairsKids rest par

end

/-- The `(node, parent)` pairs popped from a whole stack. -/
def pairsOfStack (st : List (TSNode × Option TSNode)) :
    List (TSNode × Option TSNode) :=
  st.flatMap (fun np => pairsUnder np.1 np.2)

/-- The exact condition under which the walk of `find_references` emits
the class-reference pair `x` at identifier node `n` with parent `par`
(preprocessing.py lines 165-175). -/
def classEmits (class_names : List String) (file_path : String)
    (n par : TSNode) (x : String × Reference) : Prop :=
  n.data.kind = "identifier" ∧ n.data.text ∈ class_names ∧
  par.data.kind ∈ typeUseKinds ∧
  x = (n.data.text, mkReference file_path n par)

/-- The exact condition under which the walk emits the method-reference
pair `x` (preprocessing.py lines 165-167 and 177-184). -/
def methodEmits (method_names : List String) (file_path : String)
    (n par : TSNode) (x : String × Reference) : Prop :=
  n.data.kind = "identifier" ∧ n.data.text ∈ method_names ∧
  par.data.kind ∈ callKinds ∧
  x = (n.data.text, mkReference file_path n par)

/-!  ## Concrete sample inputs used by witnesses -/

/-- A one-node tree (an empty `module`). -/
def sampleNode : TSNode :=
  .mk { nid := 0, kind := "module", field := none, text := "",
        startRow := 0, startCol := 0, startByte := 0, endByte := 0 } []

/-- A parser that yields the one-node tree for every input. -/
def sampleParse : LanguageEnum → String → TSNode := fun _ _ => sampleNode

/-- A disk on which every file is empty. -/
def emptyDisk : String → String := fun _ => ""

/-- A childless Rust `line_comment` node. -/
def lineComment (i : Nat) (s : String) : TSNode :=
  .mk { nid := i, kind := "line_comment", field := none, text := s,
        startRow := i, startCol := 0, startByte := 0, endByte := 0 } []

/-- The parse tree of the Rust source

```
// far

// a
// b
fn f() {}
```

(one distant line comment, a blank line, two adjacent line comments, a
function declaration).  The blank line produces no node: the four
children of `source_file` are the three comments and the function item,
so the function's preceding-sibling chain is `// b`, `// a`, `// far`. -/
def rustFnNode : TSNode :=
  .mk { nid := 10, kind := "function_item", field := none, text := "fn f() {}",
        startRow := 4, startCol := 0, startByte := 19, endByte := 28 }
    [.mk { nid := 11, kind := "identifier", field := some "name", text := "f",
           startRow := 4, startCol := 3, startByte := 22, endByte := 23 } []]

def rustDocTree : TSNode :=
  .mk { nid := 1, kind := "source_file", field := none,
        text := "// far\n\n// a\n// b\nfn f() {}",
        startRow := 0, startCol := 0, startByte := 0, endByte := 28 }
    [lineComment 2 "// far", lineComment 3 "// a", lineComment 4 "// b", rustFnNode]

/-- Looking a key up in the association-list dict model. -/
def dlookup {K V : Type} [BEq K] (d : List (K × V)) (k : K) : Option V :=
  (d.find? (fun e => e.1 == k)).map Prod.snd

/-- The canonical shape of one reference-attachment pass: map over the
dict entries, replacing the stored reference payload of every entry whose
key the item hits. -/
def genFold {K V A B : Type} (hit : K → A → Bool) (setR : V → B → V)
    (items : List (A × B)) (d : List (K × V)) : List (K × V) :=
  items.foldl (fun d it =>
    d.map (fun e => if hit e.1 it.1 then (e.1, setR e.2 it.2) else e)) d

/-- Two class rows sharing the class name `"A"`. -/
def sampleClassRow (src : String) : ClassData :=
  { file_path := "a.py", class_name := "A", constructor_declaration := "",
    method_declarations := "", source_code := src, references := [] }

/-- Two method rows sharing the key `("A", "m")`. -/
def sampleMethodRow (src : String) : MethodData :=
  { file_path := "a.py", class_name := "A", name := "m", doc_comment := "",
    source_code := src, references := [] }

/-- One class reference for `"A"` and one method reference for `"m"`. -/
def sampleRefAcc : RefAcc :=
  ⟨[("A", ⟨"b.py", 1, 1, "A()"⟩)], [("m", ⟨"b.py", 2, 1, "m()"⟩)]⟩

mutual

/-- All nodes of a tree, in pre-order, defined structurally. -/
def subtreeN : TSNode → List TSNode
  | .mk d cs => .mk d cs :: subtreeF cs

/-- All nodes of a forest, in pre-order. -/
def subtreeF : List TSNode → List TSNode
  | [] => []
  | c :: rest => subtreeN c ++ subtreeF rest

end

mutual

/-- Tree-sitter's span invariant, checked structurally: every child's byte
span lies within its parent's. -/
def spanWFb : TSNode → Bool
  | .mk d cs =>
      cs.all (fun c =>
        decide (d.startByte ≤ c.data.startByte) && decide (c.data.endByte ≤ d.endByte)) &&
      spanWFbF cs

/-- The span invariant over a forest. -/
def spanWFbF : List TSNode → Bool
  | [] => true
  | c :: rest => spanWFb c && spanWFbF rest

end

/-- `n`'s byte span is a sub-span of `a`'s. -/
def spanLe (n a : TSNode) : Prop :=
  a.data.startByte ≤ n.data.startByte ∧ n.data.endByte ≤ a.data.endByte

/-- `anc` is a proper ancestor of (an occurrence of) `n` in `root`. -/
def IsDescIn (root n anc : TSNode) : Prop :=
  ∃ v ∈ walkFrom [] [] root, v.node = n ∧ anc ∈ v.ancs

/-- A concrete Python parse tree: a module holding `class A:` whose block
holds `def m(self): pass`. -/
def pyModuleTree : TSNode :=
  .mk { nid := 0, kind := "module", field := none,
        text := "class A:\n    def m(self): pass", startRow := 0, startCol := 0,
        startByte := 0, endByte := 30 }
    [.mk { nid := 1, kind := "class_definition", field := none,
           text := "class A:\n    def m(self): pass", startRow := 0, startCol := 0,
           startByte := 0, endByte := 30 }
      [.mk { nid := 2, kind := "identifier", field := some "name", text := "A",
             startRow := 0, startCol := 6, startByte := 6, endByte := 7 } [],
       .mk { nid := 3, kind := "block", field := none,
             text := "def m(self): pass", startRow := 1, startCol := 4,
             startByte := 13, endByte := 30 }
        [.mk { nid := 4, kind := "function_definition", field := none,
               text := "def m(self): pass", startRow := 1, startCol := 4,
               startByte := 13, endByte := 30 }
          [.mk { nid := 5, kind := "identifier", field := some "name", text := "m",
                 startRow := 1, startCol := 8, startByte := 17, endByte := 18 } []]]]]

/-- A parser yielding the concrete Python tree. -/
def pyParse : LanguageEnum → String → TSNode := fun _ _ => pyModuleTree

/-!  ## Theorems -/

@[simp] theorem TSNode.data_mk (d : NodeData) (cs : List TSNode) :
    (TSNode.mk d cs).data = d := rfl

@[simp] theorem TSNode.children_mk (d : NodeData) (cs : List TSNode) :
    (TSNode.mk d cs).children = cs := rfl

theorem kidsWeight_eq_sum (cs : List TSNode) : (cs.map nodeWeight).sum = kidsWeight cs := by
  induction cs with
  | nil => rfl
  | cons a l ih => simp [kidsWeight, ih]

theorem nodeWeight_eq (n : TSNode) : nodeWeight n = 1 + kidsWeight n.children := by
  cases n; rfl


/-- **C9** — Extraction is deterministic: the entity rows and contributed
name lists of `process_code_content` are a function of the file path, the
content and the language alone (the embedding of the extraction path is
pure: the source holds no mutable state across calls, and the tree-sitter
parse it delegates to is itself a function of the bytes), so two runs on
the same inputs yield byte-identical records. -/
theorem extraction_idempotent (parseFn : LanguageEnum → String → TSNode)
    (fp content : String) (lang : LanguageEnum)
    (r₁ r₂ : Except PyErr (List ClassData × List MethodData × List String × List String))
    (h₁ : process_code_content parseFn fp content lang = r₁)
    (h₂ : process_code_content parseFn fp content lang = r₂) : r₁ = r₂ :=
  h₁ ▸ h₂ ▸ rfl

/-- Witness for C9 at a concrete input. -/
theorem extraction_idempotent_witness :
    process_code_content sampleParse "a.py" "" .PYTHON =
    process_code_content sampleParse "a.py" "" .PYTHON :=
  extraction_idempotent sampleParse "a.py" "" .PYTHON _ _ rfl rfl

/-- **C5** — Incremental equivalence: processing the single file
`(p, lang)` whose on-disk content is `content` through the full pipeline
equals processing the one-file in-memory corpus `{lang: [(p, content)]}`
through the incremental pipeline — including the reference lists, since
the resolution batch is the same one-file set on both sides. -/
theorem incremental_equivalence (parseFn : LanguageEnum → String → TSNode)
    (disk : String → String) (p content : String) (lang : LanguageEnum)
    (h : disk p = content) :
    process_codebase parseFn disk [(p, lang)] =
    process_codebase_in_memory parseFn disk [(lang, [(p, content)])] := by
  subst h
  cases hpc : process_code_content parseFn p (disk p) lang with
  | error e =>
      simp [process_codebase, process_codebase_in_memory, List.foldlM, hpc]
  | ok out =>
      simp [process_codebase, process_codebase_in_memory, List.foldlM, hpc]

/-- Witness for C5 at a concrete input. -/
theorem incremental_equivalence_witness :
    process_codebase sampleParse emptyDisk [("a.py", .PYTHON)] =
    process_codebase_in_memory sampleParse emptyDisk [(.PYTHON, [("a.py", "")])] :=
  incremental_equivalence sampleParse emptyDisk "a.py" "" .PYTHON rfl

/-- Binding an `Except.ok` value reduces to applying the continuation. -/
theorem ok_bind {ε α β : Type} (a : α) (k : α → Except ε β) :
    (Except.ok a >>= k) = k a := rfl

/-- A tuple that is marked deleted or whose fetch comes back absent is a
no-op of the collection loop. -/
theorem collectStep_skip (fetch : String → Option String)
    (acc : List (LanguageEnum × List (String × String))) (s p : String)
    (h : s = "D" ∨ fetch p = none) :
    collectStep fetch acc (s, p) = pure acc := by
  rcases h with h | h
  · simp [collectStep, h]
  · by_cases hd : s = "D" <;> simp [collectStep, hd, h]

/-- The collection loop of `process_changed_files` ignores a tuple that is
marked deleted or whose fetch comes back absent. -/
theorem collectChangedFiles_skip (fetch : String → Option String)
    (l₁ l₂ : List (String × String)) (s p : String)
    (h : s = "D" ∨ fetch p = none) :
    collectChangedFiles fetch (l₁ ++ (s, p) :: l₂) =
    collectChangedFiles fetch (l₁ ++ l₂) := by
  unfold collectChangedFiles
  rw [List.foldlM_append, List.foldlM_append]
  cases List.foldlM (collectStep fetch) [] l₁ with
  | error e => rfl
  | ok acc =>
      rw [ok_bind, ok_bind, List.foldlM_cons, collectStep_skip fetch acc s p h, pure_bind]

/-- **C6** — Deletion semantics: a changed-file tuple whose status is
`"D"`, or whose content fetch returns absent, contributes nothing to
`process_changed_files`: removing it from the change list leaves the
output (entities or raised error) unchanged, so it is neither an error nor
a deletion of its own. -/
theorem deleted_contributes_nothing (parseFn : LanguageEnum → String → TSNode)
    (disk : String → String) (fetch : String → Option String)
    (l₁ l₂ : List (String × String)) (s p : String)
    (h : s = "D" ∨ fetch p = none) :
    process_changed_files parseFn disk fetch (l₁ ++ (s, p) :: l₂) =
    process_changed_files parseFn disk fetch (l₁ ++ l₂) := by
  unfold process_changed_files
  rw [collectChangedFiles_skip fetch l₁ l₂ s p h]

/-- Witness for C6 at a concrete input: a deleted tuple amid a change
list, under a fetch that finds nothing. -/
theorem deleted_contributes_nothing_witness :
    process_changed_files sampleParse emptyDisk (fun _ => none)
      ([("M", "b.py")] ++ ("D", "a.py") :: [("A", "c.py")]) =
    process_changed_files sampleParse emptyDisk (fun _ => none)
      ([("M", "b.py")] ++ [("A", "c.py")]) :=
  deleted_contributes_nothing sampleParse emptyDisk (fun _ => none)
    [("M", "b.py")] [("A", "c.py")] "D" "a.py" (Or.inl rfl)

/-- **C7** — On a tree containing a single regular file `README.md`
(unsupported extension, nothing ignored), discovery does **not** silently
exclude the file and complete: `load_files` raises, because every call to
`get_language_from_extension` evaluates the dict literal entry
`LanguageEnum.GO` and `treesitter.LanguageEnum` has no member `GO`
(`AttributeError`), before the `.get` lookup that would return `None` is
ever reached. -/
theorem discovery_raises_attribute_error :
    load_files [⟨"README.md", true⟩] (fun _ => false) =
    .error (.attributeError "GO") := rfl

/-- Helper for C8: the discovery fold never appends a pair whose path the
ignore matcher accepts, whatever the accumulator. -/
theorem load_files_fold_ignores (spec : String → Bool) (p : String)
    (hp : spec p = true) (lang : LanguageEnum) :
    ∀ (entries : List FSEntry) (acc : List (String × LanguageEnum))
      (res : List (String × LanguageEnum)),
      (p, lang) ∉ acc →
      entries.foldlM (fun acc e =>
        if spec e.rel then pure acc
        else if e.isFile then do
          match ← get_language_from_extension (pathSuffix e.rel) with
          | some lang => pure (acc ++ [(e.rel, lang)])
          | none => pure acc
        else pure acc) acc = .ok res →
      (p, lang) ∉ res := by
  intro entries
  induction entries with
  | nil =>
      intro acc res hacc hres
      cases hres
      exact hacc
  | cons e rest ih =>
      intro acc res hacc hres
      rw [List.foldlM_cons] at hres
      by_cases hs : spec e.rel
      · simp only [hs, if_pos, ok_bind] at hres
        exact ih acc res hacc hres
      · simp only [hs] at hres
        by_cases hf : e.isFile
        · simp [hf, get_language_from_extension] at hres
          cases hres
        · simp only [hf, Bool.false_eq_true, if_false, ok_bind] at hres
          exact ih acc res hacc hres

/-- **C8** — Ignore-rule precedence: a path accepted by the compiled
ignore matcher is never present in the output of `load_files`, whatever
its extension: the match is tested before the extension table is ever
consulted. -/
theorem ignore_rule_precedence (entries : List FSEntry) (spec : String → Bool)
    (p : String) (hp : spec p = true) (res : List (String × LanguageEnum))
    (hres : load_files entries spec = .ok res) (lang : LanguageEnum) :
    (p, lang) ∉ res :=
  load_files_fold_ignores spec p hp lang entries [] res (by simp) hres

/-- Witness for C8 at a concrete input: a tree whose only file is an
ignored `a.py`; discovery returns the empty list and the ignored path is
absent from it even though `.py` is in the extension allow-list. -/
theorem ignore_rule_precedence_witness :
    (("a.py", LanguageEnum.PYTHON) ∉ ([] : List (String × LanguageEnum))) :=
  ignore_rule_precedence [⟨"a.py", true⟩] (fun s => s == "a.py") "a.py" rfl
    [] rfl .PYTHON

/-- **C3, counterexample** — On the Rust fixture above, the extracted doc
comment of `f` is `"// far\n// a\n// b"`: it is not the claimed
`"// a\n// b"` and it does contain the comment beyond the blank line,
because a blank line produces no sibling node and all three comments are
consecutive comment-kind siblings. -/
theorem doc_contiguity_counterexample :
    ((tsParse (fun _ _ => rustDocTree) .RUST "// far\n\n// a\n// b\nfn f() {}").2.map
        (fun m => m.doc_comment)) = ["// far\n// a\n// b"] ∧
    "// far\n// a\n// b" ≠ "// a\n// b" ∧
    List.IsInfix "// far".data "// far\n// a\n// b".data := by
  refine ⟨by decide, by decide, ?_⟩
  exact ⟨[], "\n// a\n// b".data, by decide⟩

/-- **C3, amended** — The backward sibling scan of
`Treesitter._extract_doc_comment` accumulates every consecutive
doc-capturing sibling: for a declaration preceded (nearest first) by three
single-line comments — two adjacent ones and, beyond a blank line that
produces no sibling node, a more distant one — followed by a sibling with
no doc captures whose kind is outside `docScanKinds` (where the scan
stops), the extracted doc comment is all three comment texts in
top-to-bottom order, the distant one included. -/
theorem doc_comment_scan_amended (s₁ s₂ s₃ : String) (i₁ i₂ i₃ : Nat)
    (stop : TSNode) (rest : List TSNode)
    (hcaps : docCaptures .RUST stop = [])
    (hkind : stop.data.kind ∉ docScanKinds) :
    extractDocComment .RUST
      ([lineComment i₁ s₁, lineComment i₂ s₂, lineComment i₃ s₃] ++ stop :: rest) =
    pyStrip ((s₃ ++ "\n") ++ ((s₂ ++ "\n") ++ ((s₁ ++ "\n") ++ ""))) := by
  have hlc : ∀ i s, docCaptures .RUST (lineComment i s) = [lineComment i s] := by
    intro i s
    simp [docCaptures, subtree, walkFrom, walkKids, lineComment]
  have hk : ∀ i s, (lineComment i s).data.kind = "line_comment" := fun _ _ => rfl
  have ht : ∀ i s, (lineComment i s).data.text = s := fun _ _ => rfl
  simp only [docScanKinds, List.mem_cons, List.not_mem_nil, or_false] at hkind
  simp [extractDocComment, docLoop, hlc, hk, ht, hcaps, docScanKinds]
  rw [if_neg hkind]

/-- Witness for the amended C3 theorem at a concrete input. -/
theorem doc_comment_scan_amended_witness :
    extractDocComment .RUST
      ([lineComment 4 "// b", lineComment 3 "// a", lineComment 2 "// far"] ++
        (TSNode.mk { nid := 9, kind := "use_declaration", field := none,
                     text := "use std::fmt;", startRow := 0, startCol := 0,
                     startByte := 0, endByte := 13 } []) :: []) =
    pyStrip (("// far" ++ "\n") ++ (("// a" ++ "\n") ++ (("// b" ++ "\n") ++ ""))) :=
  doc_comment_scan_amended "// b" "// a" "// far" 4 3 2 _ [] rfl (by decide)

/-!  ## Association-list lemmas for the Python-dict model -/

section DictLemmas

variable {K V : Type} [BEq K] [LawfulBEq K]

theorem beq_symm_eq (a b : K) : (a == b) = (b == a) := by
  by_cases h : a = b
  · subst h; rfl
  · simp [h, Ne.symm h]

theorem map_fst_of_fst_preserving (g : K × V → K × V) (hg : ∀ e, (g e).1 = e.1)
    (d : List (K × V)) : (d.map g).map Prod.fst = d.map Prod.fst := by
  induction d with
  | nil => rfl
  | cons a t ih => simp [hg, ih]

theorem dictUpsert_keys (d : List (K × V)) (k : K) (v : V) :
    (dictUpsert d k v).map Prod.fst =
    if d.any (fun e => e.1 == k) then d.map Prod.fst else d.map Prod.fst ++ [k] := by
  unfold dictUpsert
  split
  · exact map_fst_of_fst_preserving _ (fun e => by by_cases h : e.1 == k <;> simp [h]) d
  · simp

theorem dictUpsert_nodup (d : List (K × V)) (k : K) (v : V)
    (hd : (d.map Prod.fst).Nodup) : ((dictUpsert d k v).map Prod.fst).Nodup := by
  rw [dictUpsert_keys]
  split
  · exact hd
  · next h =>
      rw [List.any_eq_true] at h
      push_neg at h
      refine List.Nodup.append hd (List.nodup_singleton k) ?_
      intro a ha hb
      rw [List.mem_singleton] at hb
      subst hb
      rw [List.mem_map] at ha
      obtain ⟨e, he, hk⟩ := ha
      exact absurd (by simp [hk]) (h e he)

theorem dlookup_upsert_self (d : List (K × V)) (k : K) (v : V) :
    dlookup (dictUpsert d k v) k = some v := by
  unfold dictUpsert dlookup
  split
  · next h =>
      induction d with
      | nil => simp at h
      | cons a t ih =>
          by_cases ha : a.1 == k
          · simp [List.find?_cons, ha]
          · rw [List.any_cons] at h
            simp only [ha, Bool.false_or] at h
            simpa [List.find?_cons, ha] using ih h
  · rw [List.find?_append]
    have h1 : (d.find? (fun e => e.1 == k)) = none := by
      next h =>
        rw [List.find?_eq_none]
        intro e he
        rw [List.any_eq_true] at h
        push_neg at h
        simpa using h e he
    simp [h1]

theorem map_snd_find?_overwrite (t : List (K × V)) (k k' : K) (v : V)
    (h : (k' == k) = false) :
    (((t.map (fun e => if e.1 == k then (e.1, v) else e)).find?
        (fun e => e.1 == k')).map Prod.snd) =
    ((t.find? (fun e => e.1 == k')).map Prod.snd) := by
  induction t with
  | nil => rfl
  | cons a t ih =>
      by_cases ha : a.1 == k
      · have hane : (a.1 == k') = false := by
          have hak : a.1 = k := by simpa using ha
          subst hak
          rw [beq_symm_eq]
          exact h
        simp [List.find?_cons, ha, hane, ih, -List.find?_map]
      · by_cases ha' : a.1 == k'
        · simp [List.find?_cons, ha, ha', -List.find?_map]
        · simp [List.find?_cons, ha, ha', ih, -List.find?_map]

theorem dlookup_upsert_ne (d : List (K × V)) (k k' : K) (v : V)
    (h : (k' == k) = false) : dlookup (dictUpsert d k v) k' = dlookup d k' := by
  unfold dictUpsert dlookup
  split
  · exact map_snd_find?_overwrite d k k' v h
  · rw [List.find?_append]
    have h2 : (k == k') = false := by
      rw [beq_symm_eq]
      exact h
    have h3 : ([(k, v)].find? (fun e => e.1 == k')) = none := by
      simp [List.find?_cons, h2]
    rw [h3]
    simp

/-- Lookup over the row-keyed build fold: the last row carrying the key
wins, with the initial dict as fallback. -/
theorem foldUpsert_dlookup (keyf : V → K) (rows : List V) :
    ∀ (d : List (K × V)) (k : K),
      dlookup (rows.foldl (fun d v => dictUpsert d (keyf v) v) d) k =
      (rows.reverse.find? (fun v => keyf v == k)).or (dlookup d k) := by
  induction rows with
  | nil => intro d k; simp
  | cons r rest ih =>
      intro d k
      rw [List.foldl_cons, ih, List.reverse_cons, List.find?_append]
      cases hfind : rest.reverse.find? (fun v => keyf v == k) with
      | some w => rfl
      | none =>
          by_cases hx : (keyf r == k) = true
          · have hk : k = keyf r := (eq_of_beq hx).symm
            subst hk
            rw [dlookup_upsert_self]
            simp [Option.or, List.find?_cons, hx]
          · have h' : (k == keyf r) = false := by
              rw [beq_symm_eq]
              simpa using hx
            rw [dlookup_upsert_ne d (keyf r) k r h']
            simp [Option.or, List.find?_cons, hx]

theorem dlookup_of_mem (d : List (K × V)) (e : K × V)
    (hnd : (d.map Prod.fst).Nodup) (he : e ∈ d) : dlookup d e.1 = some e.2 := by
  induction d with
  | nil => cases he
  | cons a t ih =>
      rw [List.mem_cons] at he
      rcases he with he | he
      · subst he
        simp [dlookup, List.find?_cons]
      · have hne : (a.1 == e.1) = false := by
          rw [List.map_cons, List.nodup_cons] at hnd
          have : e.1 ∈ t.map Prod.fst := List.mem_map.mpr ⟨e, he, rfl⟩
          have := fun hEq : a.1 = e.1 => hnd.1 (hEq ▸ this)
          simpa using this
        rw [List.map_cons, List.nodup_cons] at hnd
        simpa [dlookup, List.find?_cons, hne] using ih hnd.2 he

/-- Rows keyed and folded into the dict model: keys stay distinct. -/
theorem foldUpsert_nodup (keyf : V → K) (rows : List V) :
    ∀ (d : List (K × V)), (d.map Prod.fst).Nodup →
      ((rows.foldl (fun d v => dictUpsert d (keyf v) v) d).map Prod.fst).Nodup := by
  induction rows with
  | nil => intro d hd; exact hd
  | cons r rest ih =>
      intro d hd
      exact ih _ (dictUpsert_nodup d (keyf r) r hd)

/-- Every entry of the upserted dict keeps the key of its value. -/
theorem foldUpsert_keyConsistent (keyf : V → K) (rows : List V) :
    ∀ (d : List (K × V)), (∀ e ∈ d, e.1 = keyf e.2) →
      ∀ e ∈ rows.foldl (fun d v => dictUpsert d (keyf v) v) d, e.1 = keyf e.2 := by
  induction rows with
  | nil => intro d hd; exact hd
  | cons r rest ih =>
      intro d hd
      refine ih _ ?_
      intro e he
      have he' : e ∈ dictUpsert d (keyf r) r := he
      by_cases hq : (d.any fun e => e.1 == keyf r) = true
      · rw [dictUpsert, if_pos hq] at he'
        rw [List.mem_map] at he'
        obtain ⟨a, ha, hae⟩ := he'
        by_cases hk : (a.1 == keyf r) = true
        · rw [if_pos hk] at hae
          subst hae
          exact eq_of_beq hk
        · rw [if_neg (by simpa using hk)] at hae
          subst hae
          exact hd a ha
      · rw [dictUpsert, if_neg hq] at he'
        rw [List.mem_append] at he'
        rcases he' with he' | he'
        · exact hd e he'
        · rw [List.mem_singleton] at he'
          subst he'
          rfl

end DictLemmas

section UpdateFold

variable {K V A B : Type} [BEq K] [LawfulBEq K]
variable (hit : K → A → Bool) (setR : V → B → V) (getR : V → B)

theorem genFold_keys (items : List (A × B)) :
    ∀ d : List (K × V), (genFold hit setR items d).map Prod.fst = d.map Prod.fst := by
  induction items with
  | nil => intro d; rfl
  | cons it₀ rest ih =>
      intro d
      rw [genFold, List.foldl_cons]
      have := ih (d.map (fun e => if hit e.1 it₀.1 then (e.1, setR e.2 it₀.2) else e))
      rw [genFold] at this
      rw [this,
        map_fst_of_fst_preserving _ (fun e => by by_cases h : hit e.1 it₀.1 <;> simp [h]) d]

theorem genFold_mem
    (h1 : ∀ v b, getR (setR v b) = b)
    (h2 : ∀ v, setR v (getR v) = v)
    (h3 : ∀ v b b', setR (setR v b) b' = setR v b')
    (items : List (A × B)) :
    ∀ (d : List (K × V)), ∀ e ∈ genFold hit setR items d,
      ∃ e₀ ∈ d, e.1 = e₀.1 ∧ e.2 = setR e₀.2 (getR e.2) ∧
        (getR e.2 = getR e₀.2 ∨
          ∃ it ∈ items, hit e.1 it.1 = true ∧ getR e.2 = it.2) := by
  induction items with
  | nil =>
      intro d e he
      exact ⟨e, he, rfl, (h2 e.2).symm, Or.inl rfl⟩
  | cons it₀ rest ih =>
      intro d e he
      obtain ⟨e₁, he₁, hkey, hval, hdisj⟩ := ih _ e he
      rw [List.mem_map] at he₁
      obtain ⟨e₀, he₀, heq⟩ := he₁
      by_cases hh : hit e₀.1 it₀.1
      · rw [if_pos hh] at heq
        subst heq
        dsimp only at hkey hval hdisj
        rw [h3] at hval
        refine ⟨e₀, he₀, hkey, hval, ?_⟩
        rcases hdisj with hsame | ⟨it', hmem', hh', hv'⟩
        · rw [h1] at hsame
          refine Or.inr ⟨it₀, List.mem_cons_self it₀ rest, ?_, hsame⟩
          rw [hkey]
          exact hh
        · exact Or.inr ⟨it', List.mem_cons_of_mem it₀ hmem', hh', hv'⟩
      · rw [if_neg hh] at heq
        subst heq
        refine ⟨e₀, he₀, hkey, hval, ?_⟩
        rcases hdisj with hsame | ⟨it', hmem', hh', hv'⟩
        · exact Or.inl hsame
        · exact Or.inr ⟨it', List.mem_cons_of_mem it₀ hmem', hh', hv'⟩

theorem genFold_attach
    (h1 : ∀ v b, getR (setR v b) = b)
    (h2 : ∀ v, setR v (getR v) = v)
    (h3 : ∀ v b b', setR (setR v b) b' = setR v b')
    (h4 : ∀ k a a', hit k a = true → hit k a' = true → a = a')
    (items : List (A × B)) :
    (items.map Prod.fst).Nodup →
    ∀ (d : List (K × V)), ∀ e ∈ genFold hit setR items d,
      ∀ it ∈ items, hit e.1 it.1 = true → getR e.2 = it.2 := by
  induction items with
  | nil =>
      intro _ d e _ it hmem
      cases hmem
  | cons it₀ rest ih =>
      intro hnd d e he it hmem hh
      rw [List.map_cons, List.nodup_cons] at hnd
      rw [List.mem_cons] at hmem
      rcases hmem with hmem | hmem
      · subst hmem
        obtain ⟨e₁, he₁, hkey, hval, hdisj⟩ :=
          genFold_mem hit setR getR h1 h2 h3 rest _ e he
        rcases hdisj with hsame | ⟨it', hmem', hh', hv'⟩
        · rw [List.mem_map] at he₁
          obtain ⟨e₀, he₀, heq⟩ := he₁
          by_cases hh0 : hit e₀.1 it.1
          · rw [if_pos hh0] at heq
            subst heq
            dsimp only at hsame
            rw [h1] at hsame
            exact hsame
          · rw [if_neg hh0] at heq
            subst heq
            rw [hkey] at hh
            exact absurd hh hh0
        · have : it'.1 = it.1 := h4 e.1 it'.1 it.1 hh' hh
          exact absurd (this ▸ List.mem_map.mpr ⟨it', hmem', rfl⟩) hnd.1
      · exact ih hnd.2 _ e he it hmem hh

end UpdateFold

section ItemsLemmas

variable {K V : Type} [BEq K] [LawfulBEq K]

theorem firstKeys_go_nodup (pairs : List (K × V)) :
    ∀ acc : List K, acc.Nodup →
      (pairs.foldl (fun acc p =>
        if acc.any (fun k => k == p.1) then acc else acc ++ [p.1]) acc).Nodup := by
  induction pairs with
  | nil => intro acc hacc; exact hacc
  | cons p rest ih =>
      intro acc hacc
      rw [List.foldl_cons]
      by_cases hq : (acc.any fun k => k == p.1) = true
      · rw [if_pos hq]
        exact ih acc hacc
      · rw [if_neg hq]
        refine ih _ (List.Nodup.append hacc (List.nodup_singleton p.1) ?_)
        intro a ha hb
        rw [List.mem_singleton] at hb
        subst hb
        rw [List.any_eq_true] at hq
        push_neg at hq
        exact absurd (by simp) (hq p.1 ha)

theorem firstKeys_nodup (pairs : List (K × V)) : (firstKeys pairs).Nodup :=
  firstKeys_go_nodup pairs [] List.nodup_nil

theorem dictItems_keys (pairs : List (K × V)) :
    (dictItems pairs).map Prod.fst = firstKeys pairs := by
  rw [dictItems, List.map_map]
  simp [Function.comp_def]

theorem foldUpsert_keys_mono (keyf : V → K) (rows : List V) :
    ∀ (d : List (K × V)) (k : K), k ∈ d.map Prod.fst →
      k ∈ (rows.foldl (fun d v => dictUpsert d (keyf v) v) d).map Prod.fst := by
  induction rows with
  | nil => intro d k hk; exact hk
  | cons r rest ih =>
      intro d k hk
      refine ih _ k ?_
      rw [dictUpsert_keys]
      split
      · exact hk
      · exact List.mem_append.mpr (Or.inl hk)

theorem foldUpsert_keys_complete (keyf : V → K) (rows : List V) :
    ∀ (d : List (K × V)), ∀ v ∈ rows,
      keyf v ∈ (rows.foldl (fun d v => dictUpsert d (keyf v) v) d).map Prod.fst := by
  induction rows with
  | nil => intro d v hv; cases hv
  | cons r rest ih =>
      intro d v hv
      rw [List.mem_cons] at hv
      rcases hv with hv | hv
      · subst hv
        rw [List.foldl_cons]
        refine foldUpsert_keys_mono keyf rest _ (keyf v) ?_
        rw [dictUpsert_keys]
        split
        · next h =>
            rw [List.any_eq_true] at h
            obtain ⟨e, he, heq⟩ := h
            exact eq_of_beq heq ▸ List.mem_map.mpr ⟨e, he, rfl⟩
        · exact List.mem_append.mpr (Or.inr (List.mem_singleton.mpr rfl))
      · exact ih _ v hv

end ItemsLemmas

theorem map_if_no_hit {α : Type} (d : List α) (c : α → Bool) (g : α → α)
    (h : ∀ e ∈ d, c e = false) : d.map (fun e => if c e then g e else e) = d := by
  induction d with
  | nil => rfl
  | cons a t ih =>
      rw [List.map_cons, if_neg (by simp [h a (List.mem_cons_self a t)]),
        ih (fun e he => h e (List.mem_cons_of_mem a he))]

/-- The guarded class-reference attachment loop coincides with the
canonical map-shaped fold: when no key matches, the map is the identity. -/
theorem attach_class_eq_genFold (items : List (String × List Reference))
    (d : List (String × ClassData)) :
    attach_class_refs items d =
    genFold (fun (k : String) a => k == a)
      (fun (c : ClassData) rs => { c with references := rs }) items d := by
  induction items generalizing d with
  | nil => rfl
  | cons it₀ rest ih =>
      rw [attach_class_refs, genFold, List.foldl_cons, List.foldl_cons]
      by_cases hq : (d.any fun e => e.1 == it₀.1) = true
      · rw [if_pos hq]
        exact ih _
      · rw [if_neg hq]
        rw [List.any_eq_true] at hq
        push_neg at hq
        have hid : d.map (fun e =>
            if e.1 == it₀.1 then (e.1, ({ e.2 with references := it₀.2 } : ClassData))
            else e) = d :=
          map_if_no_hit d _ _ (fun e he => by simpa using hq e he)
        rw [hid]
        exact ih _

theorem attach_method_eq_genFold (items : List (String × List Reference))
    (d : List ((String × String) × MethodData)) :
    attach_method_refs items d =
    genFold (fun (k : String × String) a => k.2 == a)
      (fun (m : MethodData) rs => { m with references := rs }) items d := rfl

theorem map_congr_mem {α β : Type} (l : List α) (f g : α → β)
    (h : ∀ a ∈ l, f a = g a) : l.map f = l.map g := by
  induction l with
  | nil => rfl
  | cons a t ih =>
      rw [List.map_cons, List.map_cons, h a (List.mem_cons_self a t),
        ih (fun a ha => h a (List.mem_cons_of_mem _ ha))]

theorem nodup_map_of_eq {α β : Type} (l : List α) (f g : α → β)
    (h : ∀ a ∈ l, f a = g a) (hnd : (l.map g).Nodup) : (l.map f).Nodup := by
  rw [map_congr_mem l f g h]
  exact hnd

/-- **C10** — The reference-mapping step keys class rows by class name and
method rows by `(class name, method name)`, so: the output has at most one
class row per class name and one method row per key (distinct key lists);
every output row is the *last* input row bearing its key (modulo the
attached reference list); every input key is represented in the output;
and each method name's reference list is attached to every surviving
method row with that `name`, whatever its class. -/
theorem reference_mapping_last_wins (class_data : List ClassData)
    (method_data : List MethodData) (refs : RefAcc) :
    (((map_references_to_data class_data method_data refs).1.map
        (fun c => c.class_name)).Nodup ∧
      ((map_references_to_data class_data method_data refs).2.map
        (fun m => (m.class_name, m.name))).Nodup) ∧
    (∀ c ∈ (map_references_to_data class_data method_data refs).1,
      ∃ v, class_data.reverse.find? (fun r => r.class_name == c.class_name) = some v ∧
        c = { v with references := c.references }) ∧
    (∀ m ∈ (map_references_to_data class_data method_data refs).2,
      ∃ v, method_data.reverse.find?
          (fun r => (r.class_name, r.name) == (m.class_name, m.name)) = some v ∧
        m = { v with references := m.references }) ∧
    (∀ r ∈ class_data, ∃ c ∈ (map_references_to_data class_data method_data refs).1,
      c.class_name = r.class_name) ∧
    (∀ r ∈ method_data, ∃ m ∈ (map_references_to_data class_data method_data refs).2,
      (m.class_name, m.name) = (r.class_name, r.name)) ∧
    (∀ m ∈ (map_references_to_data class_data method_data refs).2,
      ∀ it ∈ dictItems refs.mth, m.name = it.1 → m.references = it.2) := by
  have e1 : (map_references_to_data class_data method_data refs).1 =
      (genFold (fun (k : String) a => k == a)
        (fun (c : ClassData) rs => { c with references := rs })
        (dictItems refs.cls) (class_data_dict_of class_data)).map (·.2) := by
    rw [map_references_to_data]
    dsimp only
    rw [attach_class_eq_genFold]
  have e2 : (map_references_to_data class_data method_data refs).2 =
      (genFold (fun (k : String × String) a => k.2 == a)
        (fun (m : MethodData) rs => { m with references := rs })
        (dictItems refs.mth) (method_data_dict_of method_data)).map (·.2) := by
    rw [map_references_to_data]
    dsimp only
    rw [attach_method_eq_genFold]
  -- class-side facts
  have cnodup : ((class_data_dict_of class_data).map Prod.fst).Nodup := by
    unfold class_data_dict_of
    exact foldUpsert_nodup (fun cd => cd.class_name) class_data [] (by simp)
  have ckeyCons : ∀ e ∈ class_data_dict_of class_data, e.1 = e.2.class_name := by
    unfold class_data_dict_of
    exact foldUpsert_keyConsistent (fun cd => cd.class_name) class_data []
      (fun e he => absurd he (List.not_mem_nil e))
  have cmem := genFold_mem (fun (k : String) a => k == a)
    (fun (c : ClassData) rs => { c with references := rs }) (fun c => c.references)
    (fun _ _ => rfl) (fun _ => rfl) (fun _ _ _ => rfl) (dictItems refs.cls)
    (class_data_dict_of class_data)
  have ckeysfin : ((genFold (fun (k : String) a => k == a)
      (fun (c : ClassData) rs => { c with references := rs })
      (dictItems refs.cls) (class_data_dict_of class_data)).map Prod.fst) =
      (class_data_dict_of class_data).map Prod.fst :=
    genFold_keys _ _ (dictItems refs.cls) _
  have ckeyConsFin : ∀ e ∈ genFold (fun (k : String) a => k == a)
      (fun (c : ClassData) rs => { c with references := rs })
      (dictItems refs.cls) (class_data_dict_of class_data), e.1 = e.2.class_name := by
    intro e he
    obtain ⟨e₀, he₀, hk, hv, _⟩ := cmem e he
    rw [hv]
    exact hk.trans (ckeyCons e₀ he₀)
  -- method-side facts
  have mnodup : ((method_data_dict_of method_data).map Prod.fst).Nodup := by
    unfold method_data_dict_of
    exact foldUpsert_nodup (fun md => (md.class_name, md.name)) method_data [] (by simp)
  have mkeyCons : ∀ e ∈ method_data_dict_of method_data,
      e.1 = (e.2.class_name, e.2.name) := by
    unfold method_data_dict_of
    exact foldUpsert_keyConsistent (fun md => (md.class_name, md.name)) method_data []
      (fun e he => absurd he (List.not_mem_nil e))
  have mmem := genFold_mem (fun (k : String × String) a => k.2 == a)
    (fun (m : MethodData) rs => { m with references := rs }) (fun m => m.references)
    (fun _ _ => rfl) (fun _ => rfl) (fun _ _ _ => rfl) (dictItems refs.mth)
    (method_data_dict_of method_data)
  have mkeysfin : ((genFold (fun (k : String × String) a => k.2 == a)
      (fun (m : MethodData) rs => { m with references := rs })
      (dictItems refs.mth) (method_data_dict_of method_data)).map Prod.fst) =
      (method_data_dict_of method_data).map Prod.fst :=
    genFold_keys _ _ (dictItems refs.mth) _
  have mkeyConsFin : ∀ e ∈ genFold (fun (k : String × String) a => k.2 == a)
      (fun (m : MethodData) rs => { m with references := rs })
      (dictItems refs.mth) (method_data_dict_of method_data),
      e.1 = (e.2.class_name, e.2.name) := by
    intro e he
    obtain ⟨e₀, he₀, hk, hv, _⟩ := mmem e he
    rw [hv]
    exact hk.trans (mkeyCons e₀ he₀)
  refine ⟨⟨?_, ?_⟩, ?_, ?_, ?_, ?_, ?_⟩
  · rw [e1, List.map_map]
    exact nodup_map_of_eq _ _ Prod.fst (fun e he => (ckeyConsFin e he).symm)
      (by rw [ckeysfin]; exact cnodup)
  · rw [e2, List.map_map]
    exact nodup_map_of_eq _ _ Prod.fst (fun e he => (mkeyConsFin e he).symm)
      (by rw [mkeysfin]; exact mnodup)
  · intro c hc
    rw [e1] at hc
    obtain ⟨e, he, hev⟩ := List.mem_map.mp hc
    subst hev
    obtain ⟨e₀, he₀, hk, hv, _⟩ := cmem e he
    have hlook : dlookup (class_data.foldl
        (fun d cd => dictUpsert d cd.class_name cd) []) e₀.1 = some e₀.2 :=
      dlookup_of_mem _ e₀ cnodup he₀
    rw [foldUpsert_dlookup (fun cd => cd.class_name) class_data [] e₀.1] at hlook
    have hfind : class_data.reverse.find?
        (fun v => v.class_name == e₀.1) = some e₀.2 := by
      simpa [dlookup] using hlook
    have hkey2 : e₀.1 = e.2.class_name := hk.symm.trans (ckeyConsFin e he)
    rw [hkey2] at hfind
    exact ⟨e₀.2, hfind, hv⟩
  · intro m hm
    rw [e2] at hm
    obtain ⟨e, he, hev⟩ := List.mem_map.mp hm
    subst hev
    obtain ⟨e₀, he₀, hk, hv, _⟩ := mmem e he
    have hlook : dlookup (method_data.foldl
        (fun d md => dictUpsert d (md.class_name, md.name) md) []) e₀.1 = some e₀.2 :=
      dlookup_of_mem _ e₀ mnodup he₀
    rw [foldUpsert_dlookup (fun md => (md.class_name, md.name)) method_data [] e₀.1]
      at hlook
    have hfind : method_data.reverse.find?
        (fun v => (v.class_name, v.name) == e₀.1) = some e₀.2 := by
      simpa [dlookup] using hlook
    have hkey2 : e₀.1 = (e.2.class_name, e.2.name) := hk.symm.trans (mkeyConsFin e he)
    rw [hkey2] at hfind
    exact ⟨e₀.2, hfind, hv⟩
  · intro r hr
    have hk : r.class_name ∈ (class_data_dict_of class_data).map Prod.fst :=
      foldUpsert_keys_complete (fun cd => cd.class_name) class_data [] r hr
    rw [← ckeysfin] at hk
    obtain ⟨e, he, hek⟩ := List.mem_map.mp hk
    refine ⟨e.2, ?_, ?_⟩
    · rw [e1]
      exact List.mem_map.mpr ⟨e, he, rfl⟩
    · exact (ckeyConsFin e he).symm.trans hek
  · intro r hr
    have hk : (r.class_name, r.name) ∈ (method_data_dict_of method_data).map Prod.fst :=
      foldUpsert_keys_complete (fun md => (md.class_name, md.name)) method_data [] r hr
    rw [← mkeysfin] at hk
    obtain ⟨e, he, hek⟩ := List.mem_map.mp hk
    refine ⟨e.2, ?_, ?_⟩
    · rw [e2]
      exact List.mem_map.mpr ⟨e, he, rfl⟩
    · exact (mkeyConsFin e he).symm.trans hek
  · intro m hm it hitmem hname
    rw [e2] at hm
    obtain ⟨e, he, hev⟩ := List.mem_map.mp hm
    subst hev
    have hnd : ((dictItems refs.mth).map Prod.fst).Nodup := by
      rw [dictItems_keys]
      exact firstKeys_nodup refs.mth
    have hkeys : e.1 = (e.2.class_name, e.2.name) := mkeyConsFin e he
    have hhit : (e.1.2 == it.1) = true := by
      have : e.1.2 = it.1 := by
        rw [hkeys]
        exact hname
      simp [this]
    exact genFold_attach (fun (k : String × String) a => k.2 == a)
      (fun (m : MethodData) rs => { m with references := rs }) (fun m => m.references)
      (fun _ _ => rfl) (fun _ => rfl) (fun _ _ _ => rfl)
      (fun k a a' h h' => (eq_of_beq h).symm.trans (eq_of_beq h'))
      (dictItems refs.mth) hnd _ e he it hitmem hhit

/-- Witness for C10 at a concrete input containing a key collision. -/
theorem reference_mapping_last_wins_witness :
    (((map_references_to_data [sampleClassRow "c1", sampleClassRow "c2"]
        [sampleMethodRow "m1", sampleMethodRow "m2"] sampleRefAcc).1.map
        (fun c => c.class_name)).Nodup ∧
      ((map_references_to_data [sampleClassRow "c1", sampleClassRow "c2"]
        [sampleMethodRow "m1", sampleMethodRow "m2"] sampleRefAcc).2.map
        (fun m => (m.class_name, m.name))).Nodup) ∧
    (∀ c ∈ (map_references_to_data [sampleClassRow "c1", sampleClassRow "c2"]
        [sampleMethodRow "m1", sampleMethodRow "m2"] sampleRefAcc).1,
      ∃ v, [sampleClassRow "c1", sampleClassRow "c2"].reverse.find?
          (fun r => r.class_name == c.class_name) = some v ∧
        c = { v with references := c.references }) ∧
    (∀ m ∈ (map_references_to_data [sampleClassRow "c1", sampleClassRow "c2"]
        [sampleMethodRow "m1", sampleMethodRow "m2"] sampleRefAcc).2,
      ∃ v, [sampleMethodRow "m1", sampleMethodRow "m2"].reverse.find?
          (fun r => (r.class_name, r.name) == (m.class_name, m.name)) = some v ∧
        m = { v with references := m.references }) ∧
    (∀ r ∈ [sampleClassRow "c1", sampleClassRow "c2"],
      ∃ c ∈ (map_references_to_data [sampleClassRow "c1", sampleClassRow "c2"]
        [sampleMethodRow "m1", sampleMethodRow "m2"] sampleRefAcc).1,
      c.class_name = r.class_name) ∧
    (∀ r ∈ [sampleMethodRow "m1", sampleMethodRow "m2"],
      ∃ m ∈ (map_references_to_data [sampleClassRow "c1", sampleClassRow "c2"]
        [sampleMethodRow "m1", sampleMethodRow "m2"] sampleRefAcc).2,
      (m.class_name, m.name) = (r.class_name, r.name)) ∧
    (∀ m ∈ (map_references_to_data [sampleClassRow "c1", sampleClassRow "c2"]
        [sampleMethodRow "m1", sampleMethodRow "m2"] sampleRefAcc).2,
      ∀ it ∈ dictItems sampleRefAcc.mth, m.name = it.1 → m.references = it.2) :=
  reference_mapping_last_wins [sampleClassRow "c1", sampleClassRow "c2"]
    [sampleMethodRow "m1", sampleMethodRow "m2"] sampleRefAcc

/-!  ## Characterization of the reference walk -/

theorem pairsUnder_eq (n : TSNode) (p : Option TSNode) :
    pairsUnder n p = (n, p) :: pairsKids n.children n := by
  cases n
  rfl

theorem pairsKids_mem (cs : List TSNode) (par : TSNode)
    (np : TSNode × Option TSNode) :
    np ∈ pairsKids cs par ↔ ∃ c ∈ cs, np ∈ pairsUnder c (some par) := by
  induction cs with
  | nil => simp [pairsKids]
  | cons c rest ih =>
      rw [pairsKids, List.mem_append, ih]
      constructor
      · rintro (h | ⟨c', hc', h⟩)
        · exact ⟨c, List.mem_cons_self c rest, h⟩
        · exact ⟨c', List.mem_cons_of_mem c hc', h⟩
      · rintro ⟨c', hc', h⟩
        rw [List.mem_cons] at hc'
        rcases hc' with hc' | hc'
        · subst hc'
          exact Or.inl h
        · exact Or.inr ⟨c', hc', h⟩

theorem pairsOfStack_cons (n : TSNode) (p : Option TSNode)
    (rest : List (TSNode × Option TSNode)) :
    pairsOfStack ((n, p) :: rest) = pairsUnder n p ++ pairsOfStack rest := by
  simp [pairsOfStack]

theorem pairsOfStack_push (n : TSNode) (rest : List (TSNode × Option TSNode))
    (np : TSNode × Option TSNode) :
    np ∈ pairsOfStack ((n.children.map (fun c => (c, some n))).reverse ++ rest) ↔
    np ∈ pairsKids n.children n ∨ np ∈ pairsOfStack rest := by
  rw [pairsOfStack, List.flatMap_append, List.mem_append, pairsKids_mem]
  constructor
  · rintro (h | h)
    · rw [List.mem_flatMap] at h
      obtain ⟨a, ha, hnp⟩ := h
      rw [List.mem_reverse, List.mem_map] at ha
      obtain ⟨c, hc, hca⟩ := ha
      subst hca
      exact Or.inl ⟨c, hc, hnp⟩
    · exact Or.inr h
  · rintro (⟨c, hc, hnp⟩ | h)
    · refine Or.inl (List.mem_flatMap.mpr ⟨(c, some n), ?_, hnp⟩)
      rw [List.mem_reverse, List.mem_map]
      exact ⟨c, hc, rfl⟩
    · exact Or.inr h

theorem refStep_cls_mem (cn mn : List String) (fp : String) (acc : RefAcc)
    (n : TSNode) (parent : Option TSNode) (x : String × Reference) :
    x ∈ (refStep cn mn fp acc n parent).cls ↔
    x ∈ acc.cls ∨ ∃ par, parent = some par ∧ classEmits cn fp n par x := by
  by_cases hid : n.data.kind = "identifier"
  · cases parent with
    | none => simp [refStep, hid, classEmits]
    | some par =>
        by_cases hc : n.data.text ∈ cn ∧ par.data.kind ∈ typeUseKinds
        · by_cases hm : n.data.text ∈ mn ∧ par.data.kind ∈ callKinds <;>
            simp [refStep, hid, hc, hm, classEmits, List.mem_append, eq_comm]
        · by_cases hm : n.data.text ∈ mn ∧ par.data.kind ∈ callKinds <;>
            simp [refStep, hid, hc, hm, classEmits] <;> tauto
  · simp [refStep, hid, classEmits]

theorem refStep_mth_mem (cn mn : List String) (fp : String) (acc : RefAcc)
    (n : TSNode) (parent : Option TSNode) (x : String × Reference) :
    x ∈ (refStep cn mn fp acc n parent).mth ↔
    x ∈ acc.mth ∨ ∃ par, parent = some par ∧ methodEmits mn fp n par x := by
  by_cases hid : n.data.kind = "identifier"
  · cases parent with
    | none => simp [refStep, hid, methodEmits]
    | some par =>
        by_cases hc : n.data.text ∈ cn ∧ par.data.kind ∈ typeUseKinds
        · by_cases hm : n.data.text ∈ mn ∧ par.data.kind ∈ callKinds <;>
            simp [refStep, hid, hc, hm, methodEmits, List.mem_append, eq_comm] <;>
            tauto
        · by_cases hm : n.data.text ∈ mn ∧ par.data.kind ∈ callKinds <;>
            simp [refStep, hid, hc, hm, methodEmits, List.mem_append, eq_comm] <;>
            tauto
  · simp [refStep, hid, methodEmits]

theorem stackWeight_push_lt (n : TSNode) (p : Option TSNode)
    (rest : List (TSNode × Option TSNode)) :
    stackWeight ((n.children.map (fun c => (c, some n))).reverse ++ rest) <
    stackWeight ((n, p) :: rest) := by
  simp only [stackWeight, List.map_append, List.sum_append, List.map_reverse,
    List.sum_reverse, List.map_map, List.map_cons, List.sum_cons, Function.comp_def]
  have h1 : (List.map (fun x => nodeWeight x) n.children).sum = kidsWeight n.children :=
    kidsWeight_eq_sum n.children
  have h2 := nodeWeight_eq n
  omega

/-- The reference pairs accumulated by the stack walk are exactly the
initial accumulator plus one emission per qualifying `(node, parent)` pair
reachable from the stack. -/
theorem refWalk_mem (cn mn : List String) (fp : String)
    (st : List (TSNode × Option TSNode)) (acc : RefAcc) (x : String × Reference) :
    (x ∈ (refWalk cn mn fp st acc).cls ↔
      x ∈ acc.cls ∨ ∃ np ∈ pairsOfStack st, ∃ par, np.2 = some par ∧
        classEmits cn fp np.1 par x) ∧
    (x ∈ (refWalk cn mn fp st acc).mth ↔
      x ∈ acc.mth ∨ ∃ np ∈ pairsOfStack st, ∃ par, np.2 = some par ∧
        methodEmits mn fp np.1 par x) := by
  cases st with
  | nil =>
      rw [refWalk]
      simp [pairsOfStack]
  | cons hd rest =>
      obtain ⟨n, p⟩ := hd
      rw [refWalk]
      have ih := refWalk_mem cn mn fp
        ((n.children.map (fun c => (c, some n))).reverse ++ rest)
        (refStep cn mn fp acc n p) x
      constructor
      · rw [ih.1, refStep_cls_mem]
        constructor
        · rintro ((h | ⟨par, hp, hem⟩) | ⟨np, hnp, hq⟩)
          · exact Or.inl h
          · refine Or.inr ⟨(n, p), ?_, par, hp, hem⟩
            rw [pairsOfStack_cons, pairsUnder_eq]
            exact List.mem_append.mpr (Or.inl (List.mem_cons_self _ _))
          · rw [pairsOfStack_push] at hnp
            refine Or.inr ⟨np, ?_, hq⟩
            rw [pairsOfStack_cons, pairsUnder_eq]
            rcases hnp with h | h
            · exact List.mem_append.mpr (Or.inl (List.mem_cons_of_mem _ h))
            · exact List.mem_append.mpr (Or.inr h)
        · rintro (h | ⟨np, hnp, hq⟩)
          · exact Or.inl (Or.inl h)
          · rw [pairsOfStack_cons, pairsUnder_eq, List.mem_append] at hnp
            rcases hnp with hnp | hnp
            · rw [List.mem_cons] at hnp
              rcases hnp with hnp | hnp
              · subst hnp
                exact Or.inl (Or.inr hq)
              · refine Or.inr ⟨np, ?_, hq⟩
                rw [pairsOfStack_push]
                exact Or.inl hnp
            · refine Or.inr ⟨np, ?_, hq⟩
              rw [pairsOfStack_push]
              exact Or.inr hnp
      · rw [ih.2, refStep_mth_mem]
        constructor
        · rintro ((h | ⟨par, hp, hem⟩) | ⟨np, hnp, hq⟩)
          · exact Or.inl h
          · refine Or.inr ⟨(n, p), ?_, par, hp, hem⟩
            rw [pairsOfStack_cons, pairsUnder_eq]
            exact List.mem_append.mpr (Or.inl (List.mem_cons_self _ _))
          · rw [pairsOfStack_push] at hnp
            refine Or.inr ⟨np, ?_, hq⟩
            rw [pairsOfStack_cons, pairsUnder_eq]
            rcases hnp with h | h
            · exact List.mem_append.mpr (Or.inl (List.mem_cons_of_mem _ h))
            · exact List.mem_append.mpr (Or.inr h)
        · rintro (h | ⟨np, hnp, hq⟩)
          · exact Or.inl (Or.inl h)
          · rw [pairsOfStack_cons, pairsUnder_eq, List.mem_append] at hnp
            rcases hnp with hnp | hnp
            · rw [List.mem_cons] at hnp
              rcases hnp with hnp | hnp
              · subst hnp
                exact Or.inl (Or.inr hq)
              · refine Or.inr ⟨np, ?_, hq⟩
                rw [pairsOfStack_push]
                exact Or.inl hnp
            · refine Or.inr ⟨np, ?_, hq⟩
              rw [pairsOfStack_push]
              exact Or.inr hnp
termination_by stackWeight st
decreasing_by
  exact stackWeight_push_lt _ _ _

theorem pairsOfStack_singleton (n : TSNode) (p : Option TSNode) :
    pairsOfStack [(n, p)] = pairsUnder n p := by
  simp [pairsOfStack]

theorem or_exists_cons_helper {α : Type} (A : Prop) (f : α) (rest : List α)
    (P : α → Prop) :
    ((A ∨ P f) ∨ ∃ y ∈ rest, P y) ↔ (A ∨ ∃ y ∈ f :: rest, P y) := by
  constructor
  · rintro ((h | h) | ⟨y, hy, h⟩)
    · exact Or.inl h
    · exact Or.inr ⟨f, List.mem_cons_self f rest, h⟩
    · exact Or.inr ⟨y, List.mem_cons_of_mem f hy, h⟩
  · rintro (h | ⟨y, hy, h⟩)
    · exact Or.inl (Or.inl h)
    · rw [List.mem_cons] at hy
      rcases hy with hy | hy
      · subst hy
        exact Or.inl (Or.inr h)
      · exact Or.inr ⟨y, hy, h⟩

/-- Characterization of the per-language file loop of `find_references`. -/
theorem refWalk_files_mem (parseFn : LanguageEnum → String → TSNode)
    (disk : String → String) (cn mn : List String) (lang : LanguageEnum)
    (files : List String) :
    ∀ (acc : RefAcc) (x : String × Reference),
      (x ∈ (files.foldl (fun a fp =>
          refWalk cn mn fp [(parseFn lang (disk fp), none)] a) acc).cls ↔
        x ∈ acc.cls ∨ ∃ fp ∈ files, ∃ np ∈ pairsUnder (parseFn lang (disk fp)) none,
          ∃ par, np.2 = some par ∧ classEmits cn fp np.1 par x) ∧
      (x ∈ (files.foldl (fun a fp =>
          refWalk cn mn fp [(parseFn lang (disk fp), none)] a) acc).mth ↔
        x ∈ acc.mth ∨ ∃ fp ∈ files, ∃ np ∈ pairsUnder (parseFn lang (disk fp)) none,
          ∃ par, np.2 = some par ∧ methodEmits mn fp np.1 par x) := by
  induction files with
  | nil =>
      intro acc x
      simp
  | cons f rest ih =>
      intro acc x
      rw [List.foldl_cons]
      have h1 := refWalk_mem cn mn f [(parseFn lang (disk f), none)] acc x
      have h2 := ih (refWalk cn mn f [(parseFn lang (disk f), none)] acc) x
      constructor
      · rw [h2.1, h1.1, pairsOfStack_singleton]
        exact or_exists_cons_helper (x ∈ acc.cls) f rest
          (fun fp => ∃ np ∈ pairsUnder (parseFn lang (disk fp)) none,
            ∃ par, np.2 = some par ∧ classEmits cn fp np.1 par x)
      · rw [h2.2, h1.2, pairsOfStack_singleton]
        exact or_exists_cons_helper (x ∈ acc.mth) f rest
          (fun fp => ∃ np ∈ pairsUnder (parseFn lang (disk fp)) none,
            ∃ par, np.2 = some par ∧ methodEmits mn fp np.1 par x)

/-- Characterization of the grouped monadic loop of `find_references`. -/
theorem findRefsGo_mem (parseFn : LanguageEnum → String → TSNode)
    (disk : String → String) (cn mn : List String)
    (groups : List (LanguageEnum × List String)) :
    ∀ (acc out : RefAcc),
      findRefsGo parseFn disk cn mn groups acc = .ok out →
      ∀ x : String × Reference,
        (x ∈ out.cls ↔ x ∈ acc.cls ∨ ∃ g ∈ groups, ∃ fp ∈ g.2,
          ∃ np ∈ pairsUnder (parseFn g.1 (disk fp)) none,
            ∃ par, np.2 = some par ∧ classEmits cn fp np.1 par x) ∧
        (x ∈ out.mth ↔ x ∈ acc.mth ∨ ∃ g ∈ groups, ∃ fp ∈ g.2,
          ∃ np ∈ pairsUnder (parseFn g.1 (disk fp)) none,
            ∃ par, np.2 = some par ∧ methodEmits mn fp np.1 par x) := by
  induction groups with
  | nil =>
      intro acc out h x
      rw [findRefsGo] at h
      cases h
      simp
  | cons g rest ih =>
      intro acc out h x
      obtain ⟨lang, files⟩ := g
      rw [findRefsGo] at h
      cases hch : createTreesitterCheck lang with
      | error e =>
          rw [hch] at h
          exact absurd h (by simp [Bind.bind, Except.bind])
      | ok u =>
          rw [hch, ok_bind] at h
          have hgo := ih _ out h x
          have hfold := refWalk_files_mem parseFn disk cn mn lang files acc x
          constructor
          · rw [hgo.1, hfold.1]
            exact or_exists_cons_helper (x ∈ acc.cls) (lang, files) rest
              (fun g => ∃ fp ∈ g.2, ∃ np ∈ pairsUnder (parseFn g.1 (disk fp)) none,
                ∃ par, np.2 = some par ∧ classEmits cn fp np.1 par x)
          · rw [hgo.2, hfold.2]
            exact or_exists_cons_helper (x ∈ acc.mth) (lang, files) rest
              (fun g => ∃ fp ∈ g.2, ∃ np ∈ pairsUnder (parseFn g.1 (disk fp)) none,
                ∃ par, np.2 = some par ∧ methodEmits mn fp np.1 par x)

/-- One pass of the `files_by_language` grouping: membership in the
updated dict. -/
theorem groupStep_mem (acc : List (LanguageEnum × List String))
    (p : String × LanguageEnum) (fp : String) (lang : LanguageEnum) :
    (∃ g ∈ (if acc.any (fun e => e.1 == p.2) then
        acc.map (fun e => if e.1 == p.2 then (e.1, e.2 ++ [p.1]) else e)
      else acc ++ [(p.2, [p.1])]), g.1 = lang ∧ fp ∈ g.2) ↔
    ((lang = p.2 ∧ fp = p.1) ∨ ∃ g ∈ acc, g.1 = lang ∧ fp ∈ g.2) := by
  by_cases hq : (acc.any fun e => e.1 == p.2) = true
  · rw [if_pos hq]
    constructor
    · rintro ⟨g', hg', hl, hf⟩
      rw [List.mem_map] at hg'
      obtain ⟨g, hg, hgg⟩ := hg'
      by_cases hk : (g.1 == p.2) = true
      · rw [if_pos hk] at hgg
        subst hgg
        dsimp only at hl hf
        rw [List.mem_append, List.mem_singleton] at hf
        rcases hf with hf | hf
        · exact Or.inr ⟨g, hg, hl, hf⟩
        · exact Or.inl ⟨hl ▸ eq_of_beq hk, hf⟩
      · rw [if_neg hk] at hgg
        subst hgg
        exact Or.inr ⟨g, hg, hl, hf⟩
    · rintro (⟨hl, hf⟩ | ⟨g, hg, hl, hf⟩)
      · rw [List.any_eq_true] at hq
        obtain ⟨e, he, hek⟩ := hq
        refine ⟨(e.1, e.2 ++ [p.1]), List.mem_map.mpr ⟨e, he, by rw [if_pos hek]⟩, ?_, ?_⟩
        · exact (eq_of_beq hek).trans hl.symm
        · rw [List.mem_append, List.mem_singleton]
          exact Or.inr hf
      · by_cases hk : (g.1 == p.2) = true
        · refine ⟨(g.1, g.2 ++ [p.1]),
            List.mem_map.mpr ⟨g, hg, by rw [if_pos hk]⟩, hl, ?_⟩
          rw [List.mem_append]
          exact Or.inl hf
        · exact ⟨g, List.mem_map.mpr ⟨g, hg, by rw [if_neg hk]⟩, hl, hf⟩
  · rw [if_neg hq]
    constructor
    · rintro ⟨g, hg, hl, hf⟩
      rw [List.mem_append, List.mem_singleton] at hg
      rcases hg with hg | hg
      · exact Or.inr ⟨g, hg, hl, hf⟩
      · subst hg
        rw [List.mem_singleton] at hf
        exact Or.inl ⟨hl.symm, hf⟩
    · rintro (⟨hl, hf⟩ | ⟨g, hg, hl, hf⟩)
      · refine ⟨(p.2, [p.1]), ?_, hl.symm, by rw [List.mem_singleton]; exact hf⟩
        rw [List.mem_append, List.mem_singleton]
        exact Or.inr rfl
      · exact ⟨g, List.mem_append.mpr (Or.inl hg), hl, hf⟩

theorem groupByLang_mem_aux (fl : List (String × LanguageEnum)) (fp : String)
    (lang : LanguageEnum) :
    ∀ acc : List (LanguageEnum × List String),
      (∃ g ∈ fl.foldl (fun acc fl =>
          if acc.any (fun e => e.1 == fl.2) then
            acc.map (fun e => if e.1 == fl.2 then (e.1, e.2 ++ [fl.1]) else e)
          else acc ++ [(fl.2, [fl.1])]) acc, g.1 = lang ∧ fp ∈ g.2) ↔
      ((fp, lang) ∈ fl ∨ ∃ g ∈ acc, g.1 = lang ∧ fp ∈ g.2) := by
  induction fl with
  | nil =>
      intro acc
      simp
  | cons p rest ih =>
      intro acc
      rw [List.foldl_cons, ih, groupStep_mem]
      rw [List.mem_cons]
      constructor
      · rintro (h | (⟨hl, hf⟩ | h))
        · exact Or.inl (Or.inr h)
        · exact Or.inl (Or.inl (by rw [hf, hl]))
        · exact Or.inr h
      · rintro ((h | h) | h)
        · refine Or.inr (Or.inl ?_)
          rw [Prod.ext_iff] at h
          exact ⟨h.2, h.1⟩
        · exact Or.inl h
        · exact Or.inr (Or.inr h)

/-- A file/language pair is represented in the `files_by_language`
grouping exactly when it is in the original file list. -/
theorem groupByLang_mem (fl : List (String × LanguageEnum)) (fp : String)
    (lang : LanguageEnum) :
    (∃ g ∈ groupByLang fl, g.1 = lang ∧ fp ∈ g.2) ↔ (fp, lang) ∈ fl := by
  rw [groupByLang, groupByLang_mem_aux]
  simp

/-- **C1** — Classification of the Reference Resolver: over the whole
resolution batch, a pair `(name, r)` is in the emitted class references
exactly when some file of the batch has, in its parse tree, an
identifier-kind node whose text is `name`, with `name` in the class-name
set, whose immediate parent's kind is a type-use kind (`type`,
`class_type`, `object_creation_expression`) — and then `r` records that
file's path, the identifier's 1-based line and column, and the parent
node's verbatim text (see `classEmits`/`mkReference`); likewise for method
references with the method-name set and the call kinds (`call_expression`,
`method_invocation`). -/
theorem reference_classification (parseFn : LanguageEnum → String → TSNode)
    (disk : String → String) (file_list : List (String × LanguageEnum))
    (cn mn : List String) (out : RefAcc)
    (h : find_references parseFn disk file_list cn mn = .ok out) :
    (∀ name r, (name, r) ∈ out.cls ↔ ∃ fp lang, (fp, lang) ∈ file_list ∧
      ∃ np ∈ pairsUnder (parseFn lang (disk fp)) none, ∃ par, np.2 = some par ∧
        classEmits cn fp np.1 par (name, r)) ∧
    (∀ name r, (name, r) ∈ out.mth ↔ ∃ fp lang, (fp, lang) ∈ file_list ∧
      ∃ np ∈ pairsUnder (parseFn lang (disk fp)) none, ∃ par, np.2 = some par ∧
        methodEmits mn fp np.1 par (name, r)) := by
  rw [find_references] at h
  have hgo := findRefsGo_mem parseFn disk cn mn (groupByLang file_list) ⟨[], []⟩ out h
  have convert1 : ∀ (E : LanguageEnum → String → Prop),
      (∃ g ∈ groupByLang file_list, ∃ fp ∈ g.2, E g.1 fp) ↔
      (∃ fp lang, (fp, lang) ∈ file_list ∧ E lang fp) := by
    intro E
    constructor
    · rintro ⟨g, hg, fp, hfp, hE⟩
      exact ⟨fp, g.1, (groupByLang_mem file_list fp g.1).mp ⟨g, hg, rfl, hfp⟩, hE⟩
    · rintro ⟨fp, lang, hmem, hE⟩
      obtain ⟨g, hg, hl, hfp⟩ := (groupByLang_mem file_list fp lang).mpr hmem
      exact ⟨g, hg, fp, hfp, hl.symm ▸ hE⟩
  constructor
  · intro name r
    rw [(hgo (name, r)).1,
      convert1 (fun lang fp => ∃ np ∈ pairsUnder (parseFn lang (disk fp)) none,
        ∃ par, np.2 = some par ∧ classEmits cn fp np.1 par (name, r))]
    simp
  · intro name r
    rw [(hgo (name, r)).2,
      convert1 (fun lang fp => ∃ np ∈ pairsUnder (parseFn lang (disk fp)) none,
        ∃ par, np.2 = some par ∧ methodEmits mn fp np.1 par (name, r))]
    simp

/-- Witness for C1: on an empty batch, `find_references` succeeds with no
references and the classification equivalence holds vacuously. -/
theorem reference_classification_witness :
    (∀ name r, (name, r) ∈ (RefAcc.mk [] []).cls ↔
      ∃ fp lang, (fp, lang) ∈ ([] : List (String × LanguageEnum)) ∧
      ∃ np ∈ pairsUnder (sampleParse lang (emptyDisk fp)) none,
        ∃ par, np.2 = some par ∧
          classEmits ["A"] fp np.1 par (name, r)) ∧
    (∀ name r, (name, r) ∈ (RefAcc.mk [] []).mth ↔
      ∃ fp lang, (fp, lang) ∈ ([] : List (String × LanguageEnum)) ∧
      ∃ np ∈ pairsUnder (sampleParse lang (emptyDisk fp)) none,
        ∃ par, np.2 = some par ∧
          methodEmits ["m"] fp np.1 par (name, r)) :=
  reference_classification sampleParse emptyDisk [] ["A"] ["m"] ⟨[], []⟩ rfl

/-- **C2** — Reference soundness: every emitted reference pair's name is a
member of the name set supplied for the pass — the class-name set for
class references, the method-name set for method references; no reference
is produced for an untracked name. -/
theorem reference_soundness (parseFn : LanguageEnum → String → TSNode)
    (disk : String → String) (file_list : List (String × LanguageEnum))
    (cn mn : List String) (out : RefAcc)
    (h : find_references parseFn disk file_list cn mn = .ok out) :
    (∀ name r, (name, r) ∈ out.cls → name ∈ cn) ∧
    (∀ name r, (name, r) ∈ out.mth → name ∈ mn) := by
  rw [find_references] at h
  have hgo := findRefsGo_mem parseFn disk cn mn (groupByLang file_list) ⟨[], []⟩ out h
  constructor
  · intro name r hmem
    rw [(hgo (name, r)).1] at hmem
    rcases hmem with hmem | ⟨g, _, fp, _, np, _, par, _, hem⟩
    · cases hmem
    · obtain ⟨_, htext, _, hx⟩ := hem
      rw [Prod.ext_iff] at hx
      have hn : name = np.1.data.text := hx.1
      exact hn ▸ htext
  · intro name r hmem
    rw [(hgo (name, r)).2] at hmem
    rcases hmem with hmem | ⟨g, _, fp, _, np, _, par, _, hem⟩
    · cases hmem
    · obtain ⟨_, htext, _, hx⟩ := hem
      rw [Prod.ext_iff] at hx
      have hn : name = np.1.data.text := hx.1
      exact hn ▸ htext

/-- Witness for C2 at a concrete non-empty batch: one Rust file whose
tree is the single-node sample; the resolution succeeds and its (empty)
output is sound. -/
theorem reference_soundness_witness :
    (∀ name r, (name, r) ∈ (RefAcc.mk [] []).cls → name ∈ ["A"]) ∧
    (∀ name r, (name, r) ∈ (RefAcc.mk [] []).mth → name ∈ ["m"]) :=
  reference_soundness sampleParse emptyDisk [("f.rs", .RUST)] ["A"] ["m"]
    ⟨[], []⟩ (by simp [find_references, findRefsGo, groupByLang,
      createTreesitterCheck, refWalk, refStep, sampleParse, sampleNode,
      emptyDisk, ok_bind])

/-!  ## Span and ancestry facts about the extraction walk -/

mutual

theorem walkFrom_nodes : ∀ (t : TSNode) (anc prevs : List TSNode),
    (walkFrom anc prevs t).map Visit.node = subtreeN t
  | .mk d cs, anc, prevs => by
      rw [walkFrom, subtreeN, List.map_cons, walkKids_nodes cs]

theorem walkKids_nodes : ∀ (cs : List TSNode) (anc prevs : List TSNode),
    (walkKids anc prevs cs).map Visit.node = subtreeF cs
  | [], _, _ => rfl
  | c :: rest, anc, prevs => by
      rw [walkKids, subtreeF, List.map_append, walkFrom_nodes c,
        walkKids_nodes rest]

end

theorem subtree_eq_subtreeN (t : TSNode) : subtree t = subtreeN t :=
  walkFrom_nodes t [] []

theorem spanWFb_parts (d : NodeData) (cs : List TSNode)
    (h : spanWFb (.mk d cs) = true) :
    (∀ c ∈ cs, d.startByte ≤ c.data.startByte ∧ c.data.endByte ≤ d.endByte) ∧
    spanWFbF cs = true := by
  rw [spanWFb, Bool.and_eq_true, List.all_eq_true] at h
  refine ⟨fun c hc => ?_, h.2⟩
  have := h.1 c hc
  rw [Bool.and_eq_true, decide_eq_true_iff, decide_eq_true_iff] at this
  exact this

theorem spanWFbF_mem (cs : List TSNode) (c : TSNode) (hc : c ∈ cs)
    (h : spanWFbF cs = true) : spanWFb c = true := by
  induction cs with
  | nil => cases hc
  | cons a rest ih =>
      rw [spanWFbF, Bool.and_eq_true] at h
      rw [List.mem_cons] at hc
      rcases hc with hc | hc
      · exact hc ▸ h.1
      · exact ih hc h.2

mutual

theorem walkFrom_anc_facts : ∀ (t : TSNode) (anc prevs : List TSNode),
    spanWFb t = true →
    ∀ v ∈ walkFrom anc prevs t,
      v.node ∈ subtreeN t ∧
      (∀ a ∈ v.ancs, a ∈ anc ∨ a ∈ subtreeN t) ∧
      ((∀ a ∈ anc, spanLe t a) → ∀ a ∈ v.ancs, spanLe v.node a)
  | .mk d cs, anc, prevs => by
      intro hwf v hv
      rw [walkFrom] at hv
      rw [List.mem_cons] at hv
      obtain ⟨hch, hwff⟩ := spanWFb_parts d cs hwf
      rcases hv with hv | hv
      · subst hv
        refine ⟨?_, ?_, ?_⟩
        · rw [subtreeN]
          exact List.mem_cons_self _ _
        · intro a ha
          exact Or.inl ha
        · intro hspans a ha
          exact hspans a ha
      · have hkids := walkKids_anc_facts cs (.mk d cs :: anc) [] hwff v hv
        refine ⟨?_, ?_, ?_⟩
        · rw [subtreeN]
          exact List.mem_cons_of_mem _ hkids.1
        · intro a ha
          rcases hkids.2.1 a ha with h | h
          · rw [List.mem_cons] at h
            rcases h with h | h
            · subst h
              rw [subtreeN]
              exact Or.inr (List.mem_cons_self _ _)
            · exact Or.inl h
          · rw [subtreeN]
            exact Or.inr (List.mem_cons_of_mem _ h)
        · intro hspans
          refine hkids.2.2 ?_
          intro c hc a ha
          rw [List.mem_cons] at ha
          have hct : spanLe c (.mk d cs) := hch c hc
          rcases ha with ha | ha
          · exact ha ▸ hct
          · have hta := hspans a ha
            exact ⟨le_trans hta.1 hct.1, le_trans hct.2 hta.2⟩

theorem walkKids_anc_facts : ∀ (cs : List TSNode) (anc prevs : List TSNode),
    spanWFbF cs = true →
    ∀ v ∈ walkKids anc prevs cs,
      v.node ∈ subtreeF cs ∧
      (∀ a ∈ v.ancs, a ∈ anc ∨ a ∈ subtreeF cs) ∧
      ((∀ c ∈ cs, ∀ a ∈ anc, spanLe c a) → ∀ a ∈ v.ancs, spanLe v.node a)
  | [], _, _ => by
      intro _ v hv
      cases hv
  | c :: rest, anc, prevs => by
      intro hwf v hv
      rw [spanWFbF, Bool.and_eq_true] at hwf
      rw [walkKids, List.mem_append] at hv
      rcases hv with hv | hv
      · have hf := walkFrom_anc_facts c anc prevs hwf.1 v hv
        refine ⟨?_, ?_, ?_⟩
        · rw [subtreeF, List.mem_append]
          exact Or.inl hf.1
        · intro a ha
          rcases hf.2.1 a ha with h | h
          · exact Or.inl h
          · rw [subtreeF, List.mem_append]
            exact Or.inr (Or.inl h)
        · intro hspans
          exact hf.2.2 (hspans c (List.mem_cons_self c rest))
      · have hk := walkKids_anc_facts rest anc (c :: prevs) hwf.2 v hv
        refine ⟨?_, ?_, ?_⟩
        · rw [subtreeF, List.mem_append]
          exact Or.inr hk.1
        · intro a ha
          rcases hk.2.1 a ha with h | h
          · exact Or.inl h
          · rw [subtreeF, List.mem_append]
            exact Or.inr (Or.inr h)
        · intro hspans
          exact hk.2.2 (fun c' hc' => hspans c' (List.mem_cons_of_mem c hc'))

end

/-- Every captured class node is the node of one of the walked visits. -/
theorem classCaptures_node_mem (lang : LanguageEnum) (visits : List Visit) :
    ∀ cu ∈ classCaptures lang visits, ∃ v ∈ visits, v.node = cu.2 := by
  intro cu hcu
  rw [classCaptures] at hcu
  cases hcp : classPattern lang with
  | none =>
      rw [hcp] at hcu
      cases hcu
  | some p =>
      obtain ⟨pk, ck⟩ := p
      rw [hcp] at hcu
      rw [List.mem_filterMap] at hcu
      obtain ⟨v, hv, hf⟩ := hcu
      refine ⟨v, hv, ?_⟩
      split at hf
      · obtain ⟨c, _, hcu⟩ := Option.map_eq_some'.mp hf
        rw [← hcu]
      · cases hf

/-- Every method capture's visit is one of the walked visits. -/
theorem methodCaptures_visit_mem (lang : LanguageEnum) (visits : List Visit) :
    ∀ cv ∈ methodCaptures lang visits, cv.2 ∈ visits := by
  intro cv hcv
  rw [methodCaptures, List.mem_filterMap] at hcv
  obtain ⟨v, hv, hf⟩ := hcv
  obtain ⟨p, _, hp⟩ := List.exists_of_findSome?_eq_some hf
  split at hp
  · obtain ⟨c, _, hcv⟩ := Option.map_eq_some'.mp hp
    rw [← hcv]
    exact hv
  · cases hp

/-- **C4** — Class membership of extracted methods: a `MethodEntity`
assigned the class name `cn` corresponds to a captured class node with
name `cn` of which the method node is a descendant, so the method's byte
span is a sub-span of the class declaration's span; and a method node
that is a descendant of no captured class node is recorded with no class
name (which `process_code_content` turns into the empty string).  The
hypotheses state tree-sitter's invariants for the parsed tree: node ids
are distinct and child spans nest in their parents'. -/
theorem class_membership_span (parseFn : LanguageEnum → String → TSNode)
    (lang : LanguageEnum) (content : String)
    (hids : ((subtree (parseFn lang content)).map (fun u => u.data.nid)).Nodup)
    (hspan : spanWFb (parseFn lang content) = true) :
    (∀ m ∈ (tsParse parseFn lang content).2, ∀ cn, m.class_name = some cn →
      ∃ c ∈ (tsParse parseFn lang content).1, c.name = cn ∧
        c.node.data.startByte ≤ m.node.data.startByte ∧
        m.node.data.endByte ≤ c.node.data.endByte ∧
        IsDescIn (parseFn lang content) m.node c.node) ∧
    (∀ m ∈ (tsParse parseFn lang content).2,
      (∀ c ∈ (tsParse parseFn lang content).1,
        ¬ IsDescIn (parseFn lang content) m.node c.node) →
      m.class_name = none) := by
  have hsubN : subtree (parseFn lang content) = subtreeN (parseFn lang content) :=
    subtree_eq_subtreeN _
  have visits_node_mem : ∀ v ∈ walkFrom ([] : List TSNode) [] (parseFn lang content),
      v.node ∈ subtree (parseFn lang content) := by
    intro v hv
    exact List.mem_map.mpr ⟨v, hv, rfl⟩
  -- shared analysis of a method row whose class lookup succeeded
  have key : ∀ cv ∈ methodCaptures lang (walkFrom [] [] (parseFn lang content)),
      ∀ entry, (classNodesOf lang (walkFrom [] [] (parseFn lang content))).find?
          (fun cnd => cv.2.ancs.any (fun a => a.data.nid == cnd.1.data.nid)) =
          some entry →
      ∃ c ∈ (tsParse parseFn lang content).1, c.name = entry.2 ∧
        c.node = entry.1 ∧ entry.1 ∈ cv.2.ancs := by
    intro cv hcv entry hfind
    have hentry_mem := List.mem_of_find?_eq_some hfind
    have hpred := List.find?_some hfind
    rw [List.any_eq_true] at hpred
    obtain ⟨a, ha, hbeq⟩ := hpred
    have hanid : a.data.nid = entry.1.data.nid := eq_of_beq hbeq
    rw [classNodesOf, List.mem_map] at hentry_mem
    obtain ⟨cu, hcu, hcueq⟩ := hentry_mem
    obtain ⟨v', hv', hv'eq⟩ := classCaptures_node_mem lang _ cu hcu
    have hu_mem : entry.1 ∈ subtree (parseFn lang content) := by
      rw [← hcueq]
      exact List.mem_map.mpr ⟨v', hv', hv'eq⟩
    have hcvv := methodCaptures_visit_mem lang _ cv hcv
    have hfacts := walkFrom_anc_facts (parseFn lang content) [] [] hspan cv.2 hcvv
    have ha_mem : a ∈ subtree (parseFn lang content) := by
      rcases hfacts.2.1 a ha with h | h
      · cases h
      · rw [hsubN]
        exact h
    have hau : a = entry.1 :=
      List.inj_on_of_nodup_map hids ha_mem hu_mem hanid
    refine ⟨{ name := cu.1.data.text,
              source_code := cu.2.data.text,
              method_declarations := extractMethodsInClass lang cu.2,
              node := cu.2 }, ?_, ?_, ?_, ?_⟩
    · rw [tsParse]
      exact List.mem_map.mpr ⟨cu, hcu, rfl⟩
    · rw [← hcueq]
    · rw [← hcueq]
    · exact hau ▸ ha
  constructor
  · intro m hm cn hcn
    rw [tsParse, methodResultsOf, List.mem_map] at hm
    obtain ⟨cv, hcv, hmeq⟩ := hm
    subst hmeq
    obtain ⟨entry, hfind, hsnd⟩ := Option.map_eq_some'.mp hcn
    obtain ⟨c, hc, hcname, hcnode, hanc⟩ := key cv hcv entry hfind
    have hcvv := methodCaptures_visit_mem lang _ cv hcv
    have hfacts := walkFrom_anc_facts (parseFn lang content) [] [] hspan cv.2 hcvv
    have hspanLe : spanLe cv.2.node entry.1 :=
      hfacts.2.2 (fun a ha => absurd ha (List.not_mem_nil a)) entry.1 hanc
    refine ⟨c, hc, hcname.trans hsnd, ?_, ?_, ?_⟩
    · rw [hcnode]
      exact hspanLe.1
    · rw [hcnode]
      exact hspanLe.2
    · exact ⟨cv.2, hcvv, rfl, hcnode ▸ hanc⟩
  · intro m hm hno
    rw [tsParse, methodResultsOf, List.mem_map] at hm
    obtain ⟨cv, hcv, hmeq⟩ := hm
    subst hmeq
    cases hfind : (classNodesOf lang (walkFrom [] [] (parseFn lang content))).find?
        (fun cnd => cv.2.ancs.any (fun a => a.data.nid == cnd.1.data.nid)) with
    | none => rfl
    | some entry =>
        obtain ⟨c, hc, _, hcnode, hanc⟩ := key cv hcv entry hfind
        have hcvv := methodCaptures_visit_mem lang _ cv hcv
        exact absurd ⟨cv.2, hcvv, rfl, hcnode ▸ hanc⟩ (hno c hc)

/-- Witness for C4 at the concrete Python tree. -/
theorem class_membership_span_witness :
    (∀ m ∈ (tsParse pyParse .PYTHON "").2, ∀ cn, m.class_name = some cn →
      ∃ c ∈ (tsParse pyParse .PYTHON "").1, c.name = cn ∧
        c.node.data.startByte ≤ m.node.data.startByte ∧
        m.node.data.endByte ≤ c.node.data.endByte ∧
        IsDescIn (pyParse .PYTHON "") m.node c.node) ∧
    (∀ m ∈ (tsParse pyParse .PYTHON "").2,
      (∀ c ∈ (tsParse pyParse .PYTHON "").1,
        ¬ IsDescIn (pyParse .PYTHON "") m.node c.node) →
      m.class_name = none) :=
  class_membership_span pyParse .PYTHON "" (by decide) (by decide)

end GhRepoIndexing
